import Mathlib

set_option maxRecDepth 4000

/-!
Shallow embedding of the dependency-ordering core of
`src/concepts/src/concept_csv_export.py` (PIH/iniz-exporters):
records with `Members`/`Answers` referent fields, cycle detection
(`detect_cycles` with its nested `get_cycle`), reachable-subgraph
extraction (`get_all_concepts_in_tree`), the rank-relaxation orderer
(`move_referring_concepts_down`) and the exclusion filter (`exclude`).

Python exceptions are modelled with `Except String`; the unbounded
`while` loop and the recursion of `get_cycle` are modelled with an
explicit fuel parameter, `none` standing for exhausted fuel (i.e. the
run was cut short, never a behaviour of the program itself).  Python
float ranks are modelled exactly: every rank the program builds is a
multiple of 1/2, and ranks are stored as integers in half-units.
-/

/-- One concept record: the designated key field (`concept[key]`), the raw
`Members` and `Answers` fields, and the remaining payload fields, which the
ordering core carries through unmodified. -/
structure Record where
  key : String
  members : String
  answers : String
  payload : List (String × String) := []
deriving DecidableEq, Repr

deriving instance DecidableEq for Except

/-- Split a character list on `;` occurrences, Python `str.split(";")`:
the empty text gives one empty field. -/
def splitSemiList : List Char → List (List Char)
  | [] => [[]]
  | ch :: cs =>
    if ch = ';' then [] :: splitSemiList cs
    else
      match splitSemiList cs with
      | [] => [[ch]]
      | g :: gs => (ch :: g) :: gs

/-- Python `s.split(";")`. -/
def splitSemi (s : String) : List String :=
  (splitSemiList s.data).map String.mk

/-- The referent keys of a record: `Members` and `Answers` split on `;`,
empty strings removed, members first (as in the Python code, which computes
`members + answers` and skips empty names). -/
def referants (c : Record) : List String :=
  ((splitSemi c.members) ++ (splitSemi c.answers)).filter (fun n => n ≠ "")

/-- The key list of a collection. -/
def keysOf (records : List Record) : List String :=
  records.map Record.key

/-- `all_concepts_by_name[k]`: the Python dict `{c[key]: c for c in records}`
maps a key to the LAST record carrying it. -/
def byName (records : List Record) (k : String) : Option Record :=
  records.foldl (fun acc c => if c.key = k then some c else acc) none

/-- Sequence a list of fallible lookups, failing on the first `none`
(a Python `KeyError` inside a comprehension). -/
def mapO (f : α → Option β) : List α → Option (List β)
  | [] => some []
  | a :: as =>
    match f a with
    | none => none
    | some b =>
      match mapO f as with
      | none => none
      | some bs => some (b :: bs)

/-- The reference graph: `edge records a b` holds when the record the dict
associates to `a` lists `b` as a referent. -/
def edgeB (records : List Record) (a b : String) : Bool :=
  match byName records a with
  | some c => (referants c).contains b
  | none => false

/-- Propositional form of `edgeB`. -/
def edge (records : List Record) (a b : String) : Prop :=
  edgeB records a b = true

instance (records : List Record) (a b : String) : Decidable (edge records a b) := by
  unfold edge; infer_instance

/-- The collection contains a reference cycle: a nonempty edge path from some
key back to itself (a self-loop is the case `l = []`). -/
def HasCycle (records : List Record) : Prop :=
  ∃ k l, List.Chain (edge records) k (l ++ [k])

/-- Every referent key of every record resolves in the collection. -/
def Resolves (records : List Record) : Prop :=
  ∀ c ∈ records, ∀ r ∈ referants c, ∃ w, byName records r = some w

/-- All edge pairs of the collection, listed record by record; used to give
finite certificates of acyclicity. -/
def edgePairs (records : List Record) : List (String × String) :=
  records.foldr (fun c acc => ((referants c).map (fun r => (c.key, r))) ++ acc) []

/-- Reachability along referent edges (reflexive-transitive). -/
def Reachable (records : List Record) (a b : String) : Prop :=
  a = b ∨ ∃ l, List.Chain (edge records) a (l ++ [b])

/-! ### Cycle detection (`detect_cycles` / `get_cycle`)

`get_cycle(concept, visited=set(), this_branch=[])` uses mutable default
arguments, so `visited` and `this_branch` are shared by all the top-level
calls made in the `for concept in concepts` loop of one `detect_cycles`
run; the state is threaded explicitly here.  A call returns the new
`visited`, the new `this_branch` and the Python return value (`none`
standing for Python `None`).  Python truthiness of that value: `None` and
the empty list are falsy. -/

/-- Python truthiness of the `get_cycle` return value. -/
def pyTruthy : Option (List String) → Bool
  | none => false
  | some l => !l.isEmpty

/-- State-and-result of one `get_cycle` call. -/
abbrev CycRes := List String × List String × Option (List String)

/-- The `for name in members + answers` loop of `get_cycle`: look each
referent up, run the recursive call `gc` on it, and on a truthy child result
return `this_branch + [name]` built from the CURRENT shared branch. -/
def goRefs (records : List Record)
    (gc : Record → List String → List String → Option (Except String CycRes)) :
    List String → List String → List String → Option (Except String CycRes)
  | [], V, B => some (.ok (V, B, none))
  | n :: ns, V, B =>
    match byName records n with
    | none => some (.error n)
    | some u =>
      match gc u V B with
      | none => none
      | some (.error e) => some (.error e)
      | some (.ok (V2, B2, r)) =>
        if pyTruthy r then some (.ok (V2, B2, some (B2 ++ [n])))
        else goRefs records gc ns V2 B2

/-- `get_cycle(concept, visited, this_branch)`.  Fuel bounds the recursion
depth; `none` means the fuel ran out.  `.error k` is the `KeyError` raised
by `all_concepts_by_name[k]`. -/
def getCycleF (records : List Record) : Nat → Record → List String → List String →
    Option (Except String CycRes)
  | 0, _, _, _ => none
  | fuel + 1, c, V, B =>
    if c.key ∈ B then some (.ok (V, B, some B))
    else if c.key ∈ V then some (.ok (V, B, none))
    else
      match goRefs records (getCycleF records fuel) (referants c)
          (V ++ [c.key]) (B ++ [c.key]) with
      | none => none
      | some (.error e) => some (.error e)
      | some (.ok (V2, B2, some res)) => some (.ok (V2, B2, some res))
      | some (.ok (V2, B2, none)) => some (.ok (V2, B2.erase c.key, none))

/-- Boolean test that the first character list starts the second. -/
def listStartsB : List Char → List Char → Bool
  | [], _ => true
  | _ :: _, [] => false
  | a :: as, b :: bs => a = b && listStartsB as bs

/-- Boolean test that the first character list occurs inside the second. -/
def listOccursB : List Char → List Char → Bool
  | s, [] => s.isEmpty
  | s, c :: ts => listStartsB s (c :: ts) || listOccursB s ts

/-- Substring test: Python `s in t`. -/
def strIn (s t : String) : Bool :=
  listOccursB s.data t.data

/-- Number of (possibly overlapping) occurrences of `s` in `t`,
to state claims of the form "contains ... exactly once". -/
def countOcc (t s : String) : Nat :=
  (List.range (t.data.length + 1)).countP
    (fun i => listStartsB s.data (t.data.drop i))

/-- Python `sep.join(parts)`. -/
def joinSep (sep : String) : List String → String
  | [] => ""
  | [s] => s
  | s :: rest => s ++ sep ++ joinSep sep rest

/-- `" --> ".join(cycle)`. -/
def joinArrows (l : List String) : String :=
  joinSep " --> " l

/-- The `for concept in concepts` loop of `detect_cycles`, threading the
shared `visited` / `this_branch` state and accumulating the de-duplicated
cycle strings. -/
def detectRoots (records : List Record) (fuel : Nat) :
    List Record → List String → List String → List String →
    Option (Except String (List String))
  | [], _, _, acc => some (.ok acc)
  | c :: cs, V, B, acc =>
    match getCycleF records fuel c V B with
    | none => none
    | some (.error e) => some (.error e)
    | some (.ok (V2, B2, r)) =>
      if pyTruthy r then
        let s := joinArrows (r.getD [])
        detectRoots records fuel cs V2 B2
          (if acc.all (fun t => !(strIn s t)) then acc ++ [s] else acc)
      else detectRoots records fuel cs V2 B2 acc

/-- The prefix of the exception message raised by `detect_cycles`. -/
def cycleMsgBase : String :=
  "Some concepts in the specified set refer circularly to each other. The concepts therefore cannot be ordered in a CSV. Cylces of dependencies are printed below.\n\t"

/-- `detect_cycles(concepts)`: `.ok ()` models a silent return, `.error`
the raised exception (either a `KeyError` or the cycle report). -/
def detectCycles (records : List Record) (fuel : Nat) : Option (Except String Unit) :=
  match detectRoots records fuel records [] [] [] with
  | none => none
  | some (.error e) => some (.error e)
  | some (.ok []) => some (.ok ())
  | some (.ok cycleStrings) =>
    some (.error (cycleMsgBase ++ joinSep "\n\t" cycleStrings))

/-! ### Subgraph extraction (`get_all_concepts_in_tree`) -/

/-- Python `set.add` on an insertion-ordered list model of a set. -/
def addSet (S : List String) (k : String) : List String :=
  if k ∈ S then S else S ++ [k]

/-- The work loop: dequeue a name, add it to the tree set, look its record
up, and enqueue every nonempty referent not already in the set.  One unit of
fuel per dequeue. -/
def treeAux (records : List Record) : Nat → List String → List String →
    Option (Except String (List String))
  | 0, _, _ => none
  | fuel + 1, Q, S =>
    match Q with
    | [] => some (.ok S)
    | k :: Q2 =>
      match byName records k with
      | none => some (.error k)
      | some u =>
        treeAux records fuel
          (Q2 ++ (referants u).filter (fun n => n ∉ addSet S k)) (addSet S k)

/-- `get_all_concepts_in_tree(all_concepts, set_name)`. -/
def getAllConceptsInTree (records : List Record) (root : String) (fuel : Nat) :
    Option (Except String (List Record)) :=
  match treeAux records fuel [root] [] with
  | none => none
  | some (.error e) => some (.error e)
  | some (.ok S) =>
    match mapO (byName records) S with
    | none => some (.error "KeyError")
    | some out => some (.ok out)

/-! ### The orderer (`move_referring_concepts_down`)

The Python code ranks records with floats: `float(i)` initially, bumps to
`max + 0.5`.  Every rank it ever builds is a multiple of 1/2 (and these are
exact in floating point), so ranks are embedded exactly in half-units: the
stored integer is twice the Python float.  `float(i)` is stored as `2*i`
and a `+ 0.5` bump as `+ 1`; comparisons and the final sort are unchanged
under this doubling. -/

/-- Python dict assignment `d[k] = v`: replace in place, else append. -/
def dictInsert (d : List (String × ℤ)) (k : String) (v : ℤ) : List (String × ℤ) :=
  match d with
  | [] => [(k, v)]
  | (k2, v2) :: rest =>
    if k2 = k then (k, v) :: rest else (k2, v2) :: dictInsert rest k v

/-- Python dict read `d[k]` (first entry; entries have unique keys). -/
def dictGet (d : List (String × ℤ)) (k : String) : Option ℤ :=
  (d.find? (fun p => p.1 = k)).map (fun p => p.2)

/-- The initial order dict `{c[key]: float(i) for i, c in enumerate(concepts)}`
(ranks in half-units: `float(i)` is stored as `2*i`). -/
def initOrder (records : List Record) : List (String × ℤ) :=
  (records.enum).foldl (fun d ic => dictInsert d ic.2.key (2 * (ic.1 : ℤ))) []

/-- Python `max` of a nonempty list, given as head and tail. -/
def maxI (v : ℤ) (vs : List ℤ) : ℤ :=
  vs.foldl max v

/-- The body of one pass of `move_referring_concepts_down`: walk the records
in order, bumping the rank of any record not strictly above all of its
referents to `max + 0.5` (stored as `max + 1` in half-units), and record
whether any bump happened. -/
def onePassAux :
    List Record → List (String × ℤ) → Bool → Except String (List (String × ℤ) × Bool)
  | [], d, ch => .ok (d, ch)
  | c :: cs, d, ch =>
    match referants c with
    | [] => onePassAux cs d ch
    | r0 :: rs =>
      match mapO (dictGet d) (r0 :: rs) with
      | none => .error "KeyError"
      | some [] => onePassAux cs d ch
      | some (v0 :: vs) =>
        match dictGet d c.key with
        | none => .error c.key
        | some cur =>
          if cur ≤ maxI v0 vs then
            onePassAux cs (dictInsert d c.key (maxI v0 vs + 1)) true
          else onePassAux cs d ch

/-- One full pass over the collection. -/
def onePass (records : List Record) (d : List (String × ℤ)) :
    Except String (List (String × ℤ) × Bool) :=
  onePassAux records d false

/-- The `while needs_more_ordering` loop, one unit of fuel per pass. -/
def mrcdLoop (records : List Record) : Nat → List (String × ℤ) →
    Option (Except String (List (String × ℤ)))
  | 0, _ => none
  | fuel + 1, d =>
    match onePass records d with
    | .error e => some (.error e)
    | .ok (d2, false) => some (.ok d2)
    | .ok (d2, true) => mrcdLoop records fuel d2

/-- `move_referring_concepts_down(concepts, key)`: relax ranks to a fixed
point, stable-sort the `(key, rank)` pairs by rank, and map the keys back to
records. -/
def moveReferringConceptsDown (records : List Record) (fuel : Nat) :
    Option (Except String (List Record)) :=
  match mrcdLoop records fuel (initOrder records) with
  | none => none
  | some (.error e) => some (.error e)
  | some (.ok d) =>
    match mapO (fun p => byName records (Prod.fst p))
        (d.insertionSort (fun a b => a.2 ≤ b.2)) with
    | none => some (.error "KeyError")
    | some out => some (.ok out)

/-! ### The exclusion filter (`exclude`) -/

/-- `exclude(concepts, excludes)`. -/
def exclude (concepts : List Record) (excludes : List String) : List Record :=
  concepts.filter (fun c => c.key ∉ excludes)

/-! ### Basic facts about lookups and dictionaries -/

theorem byName_go (l : List Record) (k : String) :
    ∀ acc, l.foldl (fun a c => if c.key = k then some c else a) acc =
      (l.foldl (fun a c => if c.key = k then some c else a) none).elim acc some := by
  induction l with
  | nil => intro acc; rfl
  | cons c t ih =>
    intro acc
    simp only [List.foldl_cons]
    rw [ih, ih (if c.key = k then some c else none)]
    cases ho : t.foldl (fun a c => if c.key = k then some c else a) none with
    | some u => rfl
    | none => by_cases h : c.key = k <;> simp [h]

theorem byName_cons (c : Record) (l : List Record) (k : String) :
    byName (c :: l) k =
      (byName l k).elim (if c.key = k then some c else none) some := by
  show l.foldl _ _ = _
  rw [byName_go]
  rfl

theorem byName_some_mem {l : List Record} {k : String} {c : Record}
    (h : byName l k = some c) : c ∈ l ∧ c.key = k := by
  induction l with
  | nil => cases h
  | cons u t ih =>
    rw [byName_cons] at h
    cases hb : byName t k with
    | some w =>
      rw [hb] at h
      obtain ⟨hm, hk⟩ := ih (hb.trans h)
      exact ⟨List.mem_cons_of_mem _ hm, hk⟩
    | none =>
      rw [hb] at h
      simp only [Option.elim] at h
      by_cases hk : u.key = k
      · rw [if_pos hk] at h
        cases h
        exact ⟨List.mem_cons_self _ _, hk⟩
      · rw [if_neg hk] at h
        cases h

theorem byName_none_iff {l : List Record} {k : String} :
    byName l k = none ↔ k ∉ keysOf l := by
  induction l with
  | nil => simp [byName, keysOf]
  | cons u t ih =>
    rw [byName_cons]
    cases hb : byName t k with
    | some w =>
      simp only [Option.elim]
      have hkt : k ∈ keysOf t := by
        obtain ⟨hm, hk⟩ := byName_some_mem hb
        exact hk ▸ List.mem_map_of_mem Record.key hm
      constructor
      · intro h; cases h
      · intro h
        have hmem : k ∈ keysOf (u :: t) := by
          simp only [keysOf, List.map_cons, List.mem_cons]
          right
          simpa [keysOf] using hkt
        exact absurd hmem h
    | none =>
      simp only [Option.elim]
      have hkt : k ∉ keysOf t := ih.mp hb
      by_cases hk : u.key = k
      · simp only [if_pos hk]
        constructor
        · intro h; cases h
        · intro h
          exact absurd (by simp [keysOf, hk] : k ∈ keysOf (u :: t)) h
      · simp only [if_neg hk]
        constructor
        · intro _ hor
          rcases (by simpa [keysOf] using hor : k = u.key ∨ k ∈ keysOf t) with h1 | h1
          · exact hk h1.symm
          · exact hkt h1
        · intro _; trivial

theorem byName_mem_keys {l : List Record} {k : String} (h : k ∈ keysOf l) :
    ∃ c, byName l k = some c := by
  cases hb : byName l k with
  | none => exact absurd h (byName_none_iff.mp hb)
  | some c => exact ⟨c, rfl⟩

theorem byName_nodup {l : List Record} {c : Record}
    (hnd : (keysOf l).Nodup) (hc : c ∈ l) : byName l c.key = some c := by
  induction l with
  | nil => cases hc
  | cons u t ih =>
    rw [byName_cons]
    simp only [keysOf, List.map_cons, List.nodup_cons] at hnd
    rcases List.mem_cons.mp hc with h | h
    · subst h
      have : byName t c.key = none :=
        byName_none_iff.mpr (by simpa [keysOf] using hnd.1)
      simp [this]
    · have := ih hnd.2 h
      simp [this]

theorem mapO_some_of {f : α → Option β} {l : List α}
    (h : ∀ a ∈ l, ∃ b, f a = some b) : ∃ m, mapO f l = some m := by
  induction l with
  | nil => exact ⟨[], rfl⟩
  | cons a t ih =>
    obtain ⟨b, hb⟩ := h a (by simp)
    obtain ⟨m, hm⟩ := ih (fun x hx => h x (by simp [hx]))
    exact ⟨b :: m, by simp [mapO, hb, hm]⟩

theorem mapO_none_of {f : α → Option β} {l : List α} {a : α}
    (ha : a ∈ l) (h : f a = none) : mapO f l = none := by
  induction l with
  | nil => cases ha
  | cons x t ih =>
    rcases List.mem_cons.mp ha with h1 | h1
    · subst h1; simp [mapO, h]
    · cases hx : f x
      · simp [mapO, hx]
      · simp [mapO, hx, ih h1]

theorem mapO_length {f : α → Option β} {l : List α} {m : List β}
    (h : mapO f l = some m) : m.length = l.length := by
  induction l generalizing m with
  | nil => simp [mapO] at h; simp [← h]
  | cons a t ih =>
    simp only [mapO] at h
    cases ha : f a <;> rw [ha] at h
    · cases h
    · cases ht : mapO f t <;> rw [ht] at h
      · cases h
      · cases h; simp [ih ht]

theorem mapO_mem {f : α → Option β} {l : List α} {m : List β}
    (h : mapO f l = some m) {b : β} (hb : b ∈ m) : ∃ a ∈ l, f a = some b := by
  induction l generalizing m with
  | nil => simp [mapO] at h; subst h; cases hb
  | cons a t ih =>
    simp only [mapO] at h
    cases ha : f a with
    | none => rw [ha] at h; cases h
    | some b0 =>
      rw [ha] at h
      cases ht : mapO f t with
      | none => rw [ht] at h; cases h
      | some m0 =>
        rw [ht] at h
        cases h
        rcases List.mem_cons.mp hb with h1 | h1
        · exact ⟨a, by simp, by rw [ha, h1]⟩
        · obtain ⟨x, hx, hfx⟩ := ih ht h1
          exact ⟨x, by simp [hx], hfx⟩

theorem mapO_forall_mem {f : α → Option β} {l : List α} {m : List β}
    (h : mapO f l = some m) {a : α} (ha : a ∈ l) : ∃ b ∈ m, f a = some b := by
  induction l generalizing m with
  | nil => cases ha
  | cons x t ih =>
    simp only [mapO] at h
    cases hx : f x with
    | none => rw [hx] at h; cases h
    | some b0 =>
      rw [hx] at h
      cases ht : mapO f t with
      | none => rw [ht] at h; cases h
      | some m0 =>
        rw [ht] at h
        cases h
        rcases List.mem_cons.mp ha with h1 | h1
        · exact ⟨b0, by simp, by rw [h1, hx]⟩
        · obtain ⟨b, hb, hfb⟩ := ih ht h1
          exact ⟨b, by simp [hb], hfb⟩

theorem mapO_getElem {f : α → Option β} {l : List α} {m : List β}
    (h : mapO f l = some m) : ∀ i (hi : i < l.length) (hm : i < m.length),
      f (l[i]) = some (m[i]) := by
  induction l generalizing m with
  | nil => intro i hi; cases hi
  | cons a t ih =>
    simp only [mapO] at h
    cases ha : f a with
    | none => rw [ha] at h; cases h
    | some b0 =>
      rw [ha] at h
      cases ht : mapO f t with
      | none => rw [ht] at h; cases h
      | some m0 =>
        rw [ht] at h
        cases h
        intro i hi hm
        cases i with
        | zero => simpa using ha
        | succ j =>
          simp only [List.getElem_cons_succ]
          exact ih ht j (by simpa using hi) (by simpa using hm)

/-! ### Dictionary lemmas -/

theorem dictInsert_map_fst_mem {d : List (String × ℤ)} {k : String} {v : ℤ}
    (h : k ∈ d.map Prod.fst) :
    (dictInsert d k v).map Prod.fst = d.map Prod.fst := by
  induction d with
  | nil => cases h
  | cons p t ih =>
    obtain ⟨k2, v2⟩ := p
    simp only [dictInsert]
    by_cases hk : k2 = k
    · simp [hk]
    · simp only [if_neg hk, List.map_cons]
      rw [ih]
      rcases (by simpa using h) with h1 | h1
      · exact absurd h1.symm hk
      · simpa using h1

theorem dictInsert_fresh {d : List (String × ℤ)} {k : String} {v : ℤ}
    (h : k ∉ d.map Prod.fst) : dictInsert d k v = d ++ [(k, v)] := by
  induction d with
  | nil => rfl
  | cons p t ih =>
    obtain ⟨k2, v2⟩ := p
    simp only [dictInsert]
    have hk : ¬(k2 = k) := by
      intro he; exact h (by simp [he])
    rw [if_neg hk, ih (fun hm => h (by simp [hm]))]
    rfl

theorem dictGet_insert_self {d : List (String × ℤ)} {k : String} {v : ℤ} :
    dictGet (dictInsert d k v) k = some v := by
  induction d with
  | nil =>
    show (List.find? (fun p => decide (p.1 = k)) [(k, v)]).map _ = some v
    rw [List.find?_cons_of_pos _ (by simp)]
    rfl
  | cons p t ih =>
    obtain ⟨k2, v2⟩ := p
    simp only [dictInsert]
    by_cases hk : k2 = k
    · rw [if_pos hk]
      show (List.find? (fun p => decide (p.1 = k)) ((k, v) :: t)).map _ = some v
      rw [List.find?_cons_of_pos _ (by simp)]
      rfl
    · rw [if_neg hk]
      show (List.find? (fun p => decide (p.1 = k)) ((k2, v2) :: _)).map _ = some v
      rw [List.find?_cons_of_neg _ (by simpa using hk)]
      exact ih

theorem dictGet_insert_ne {d : List (String × ℤ)} {k k2 : String} {v : ℤ}
    (h : k2 ≠ k) : dictGet (dictInsert d k v) k2 = dictGet d k2 := by
  induction d with
  | nil =>
    show (List.find? (fun p => decide (p.1 = k2)) [(k, v)]).map _ = none
    rw [List.find?_cons_of_neg _ (by simpa using Ne.symm h)]
    rfl
  | cons p t ih =>
    obtain ⟨k3, v3⟩ := p
    simp only [dictInsert]
    by_cases hk : k3 = k
    · subst hk
      rw [if_pos rfl]
      show (List.find? (fun p => decide (p.1 = k2)) ((k3, v) :: t)).map _ =
        (List.find? (fun p => decide (p.1 = k2)) ((k3, v3) :: t)).map _
      rw [List.find?_cons_of_neg _ (by simpa using fun he => h he.symm),
        List.find?_cons_of_neg _ (by simpa using fun he => h he.symm)]
    · rw [if_neg hk]
      by_cases hk2 : k3 = k2
      · subst hk2
        show (List.find? (fun p => decide (p.1 = k3)) ((k3, v3) :: _)).map _ =
          (List.find? (fun p => decide (p.1 = k3)) ((k3, v3) :: t)).map _
        rw [List.find?_cons_of_pos _ (by simp), List.find?_cons_of_pos _ (by simp)]
      · show (List.find? (fun p => decide (p.1 = k2)) ((k3, v3) :: _)).map _ =
          (List.find? (fun p => decide (p.1 = k2)) ((k3, v3) :: t)).map _
        rw [List.find?_cons_of_neg _ (by simpa using hk2),
          List.find?_cons_of_neg _ (by simpa using hk2)]
        exact ih

theorem dictGet_none_iff {d : List (String × ℤ)} {k : String} :
    dictGet d k = none ↔ k ∉ d.map Prod.fst := by
  simp only [dictGet, Option.map_eq_none', List.find?_eq_none, List.mem_map,
    decide_eq_true_eq]
  constructor
  · rintro h ⟨p, hp, hk⟩
    exact h p hp hk
  · intro h p hp hk
    exact h ⟨p, hp, hk⟩

theorem dictGet_some_mem {d : List (String × ℤ)} {k : String} {v : ℤ}
    (h : dictGet d k = some v) : (k, v) ∈ d := by
  simp only [dictGet, Option.map_eq_some'] at h
  obtain ⟨p, hp, hv⟩ := h
  have h1 := List.mem_of_find?_eq_some hp
  have h2 := List.find?_some hp
  simp only [decide_eq_true_eq] at h2
  obtain ⟨pk, pv⟩ := p
  simp only at h2 hv
  subst h2; subst hv
  exact h1

theorem dictGet_of_mem_nodup {d : List (String × ℤ)}
    (hnd : (d.map Prod.fst).Nodup) {k : String} {v : ℤ} (h : (k, v) ∈ d) :
    dictGet d k = some v := by
  induction d with
  | nil => cases h
  | cons p t ih =>
    obtain ⟨k2, v2⟩ := p
    simp only [List.map_cons, List.nodup_cons] at hnd
    rcases List.mem_cons.mp h with h1 | h1
    · cases h1
      show (List.find? (fun p => decide (p.1 = k)) ((k, v) :: t)).map _ = some v
      rw [List.find?_cons_of_pos _ (by simp)]
      rfl
    · have hk : k2 ≠ k := by
        intro he
        subst he
        exact hnd.1 (by simpa using List.mem_map_of_mem Prod.fst h1)
      show (List.find? (fun p => decide (p.1 = k)) ((k2, v2) :: t)).map _ = some v
      rw [List.find?_cons_of_neg _ (by simpa using hk)]
      exact ih hnd.2 h1

theorem mem_dictInsert {d : List (String × ℤ)} {k : String} {v : ℤ} {p : String × ℤ}
    (h : p ∈ dictInsert d k v) : p = (k, v) ∨ p ∈ d := by
  induction d with
  | nil => simpa [dictInsert] using h
  | cons q t ih =>
    obtain ⟨k2, v2⟩ := q
    simp only [dictInsert] at h
    by_cases hk : k2 = k
    · rw [if_pos hk] at h
      rcases List.mem_cons.mp h with h1 | h1
      · exact Or.inl h1
      · exact Or.inr (List.mem_cons_of_mem _ h1)
    · rw [if_neg hk] at h
      rcases List.mem_cons.mp h with h1 | h1
      · exact Or.inr (h1 ▸ List.mem_cons_self _ _)
      · rcases ih h1 with h2 | h2
        · exact Or.inl h2
        · exact Or.inr (List.mem_cons_of_mem _ h2)

theorem foldl_dictInsert_fresh :
    ∀ (ps : List (String × ℤ)) (d0 : List (String × ℤ)),
      (∀ p ∈ ps, p.1 ∉ d0.map Prod.fst) → (ps.map Prod.fst).Nodup →
      ps.foldl (fun d p => dictInsert d p.1 p.2) d0 = d0 ++ ps := by
  intro ps
  induction ps with
  | nil => intro d0 _ _; simp
  | cons p t ih =>
    intro d0 hfresh hnd
    simp only [List.foldl_cons]
    rw [dictInsert_fresh (hfresh p (by simp))]
    simp only [List.map_cons, List.nodup_cons] at hnd
    rw [ih (d0 ++ [(p.1, p.2)]) ?_ hnd.2]
    · simp
    · intro q hq
      simp only [List.map_append, List.mem_append]
      rintro (h1 | h1)
      · exact hfresh q (by simp [hq]) h1
      · simp only [List.map_cons, List.map_nil, List.mem_singleton] at h1
        exact hnd.1 (h1 ▸ List.mem_map_of_mem Prod.fst hq)

theorem enumPairs_fst (records : List Record) :
    (records.enum.map (fun ic => (ic.2.key, 2 * (ic.1 : ℤ)))).map Prod.fst =
      keysOf records := by
  rw [List.map_map]
  have h1 : (Prod.fst ∘ fun ic : Nat × Record => (ic.2.key, 2 * (ic.1 : ℤ))) =
      Record.key ∘ Prod.snd := rfl
  rw [h1, ← List.map_map, List.enum_map_snd]
  rfl

theorem initOrder_eq {records : List Record} (h : (keysOf records).Nodup) :
    initOrder records = records.enum.map (fun ic => (ic.2.key, 2 * (ic.1 : ℤ))) := by
  have h1 : initOrder records =
      (records.enum.map (fun ic => (ic.2.key, 2 * (ic.1 : ℤ)))).foldl
        (fun d p => dictInsert d p.1 p.2) [] :=
    (List.foldl_map (fun ic : ℕ × Record => (ic.2.key, 2 * (ic.1 : ℤ)))
      (fun d p => dictInsert d p.1 p.2) records.enum []).symm
  rw [h1, foldl_dictInsert_fresh _ [] (by simp) (by rw [enumPairs_fst]; exact h)]
  rfl

theorem initOrder_map_fst {records : List Record} (h : (keysOf records).Nodup) :
    (initOrder records).map Prod.fst = keysOf records := by
  rw [initOrder_eq h, enumPairs_fst]

/-! ### Edge and chain lemmas -/

theorem edge_elim {records : List Record} {a b : String} (h : edge records a b) :
    ∃ c, byName records a = some c ∧ b ∈ referants c := by
  unfold edge edgeB at h
  cases hb : byName records a with
  | none => rw [hb] at h; cases h
  | some c =>
    rw [hb] at h
    exact ⟨c, rfl, by simpa using h⟩

theorem edge_intro {records : List Record} {a b : String} {c : Record}
    (hb : byName records a = some c) (hr : b ∈ referants c) : edge records a b := by
  unfold edge edgeB
  rw [hb]
  simpa using hr

theorem edge_src_mem {records : List Record} {a b : String} (h : edge records a b) :
    a ∈ keysOf records := by
  obtain ⟨c, hb, _⟩ := edge_elim h
  obtain ⟨hm, hk⟩ := byName_some_mem hb
  exact hk ▸ List.mem_map_of_mem Record.key hm

theorem edge_tgt_mem {records : List Record} (hres : Resolves records)
    {a b : String} (h : edge records a b) : b ∈ keysOf records := by
  obtain ⟨c, hb, hr⟩ := edge_elim h
  obtain ⟨w, hw⟩ := hres c (byName_some_mem hb).1 b hr
  obtain ⟨hm, hk⟩ := byName_some_mem hw
  exact hk ▸ List.mem_map_of_mem Record.key hm

theorem chain_tgts_mem {records : List Record} (hres : Resolves records) :
    ∀ (l : List String) (k : String), List.Chain (edge records) k l →
      ∀ x ∈ l, x ∈ keysOf records := by
  intro l
  induction l with
  | nil => intro k _ x hx; cases hx
  | cons b t ih =>
    intro k hch x hx
    rw [List.chain_cons] at hch
    rcases List.mem_cons.mp hx with h1 | h1
    · exact h1 ▸ edge_tgt_mem hres hch.1
    · exact ih b hch.2 x h1

theorem chain_nodup {records : List Record} (hnc : ¬ HasCycle records) :
    ∀ (l : List String) (k : String), List.Chain (edge records) k l →
      (k :: l).Nodup := by
  intro l
  induction l with
  | nil => intro k _; simp
  | cons b t ih =>
    intro k hch
    have hch2 := (List.chain_cons.mp hch).2
    have hnd := ih b hch2
    rw [List.nodup_cons]
    refine ⟨?_, hnd⟩
    intro hk
    obtain ⟨ys, zs, hsplit⟩ := List.append_of_mem hk
    rw [hsplit] at hch
    have := (List.chain_split.mp hch).1
    exact hnc ⟨k, ys, this⟩

theorem chain_length_le {records : List Record} (hnc : ¬ HasCycle records)
    (hres : Resolves records) {k : String} {l : List String}
    (hk : k ∈ keysOf records) (hch : List.Chain (edge records) k l) :
    l.length + 1 ≤ records.length := by
  have hnd := chain_nodup hnc l k hch
  have hsub : (k :: l) ⊆ keysOf records := by
    intro x hx
    rcases List.mem_cons.mp hx with h1 | h1
    · exact h1 ▸ hk
    · exact chain_tgts_mem hres l k hch x h1
  have := (hnd.subperm hsub).length_le
  simpa [keysOf] using this

theorem mem_edgePairs {records : List Record} {c : Record} (hc : c ∈ records)
    {r : String} (hr : r ∈ referants c) : (c.key, r) ∈ edgePairs records := by
  induction records with
  | nil => cases hc
  | cons u t ih =>
    simp only [edgePairs, List.foldr_cons, List.mem_append]
    rcases List.mem_cons.mp hc with h1 | h1
    · exact Or.inl (by subst h1; exact List.mem_map_of_mem _ hr)
    · exact Or.inr (by simpa [edgePairs] using ih h1)

/-- A strictly decreasing height along every listed referent pair certifies
that the collection is acyclic; this gives finite, checkable certificates of
`¬ HasCycle` for concrete collections. -/
theorem noCycle_of_heights (records : List Record) (h : String → Nat)
    (hh : ∀ p ∈ edgePairs records, h p.2 < h p.1) : ¬ HasCycle records := by
  have aux : ∀ (l : List String) (k last : String),
      List.Chain (edge records) k (l ++ [last]) → h last < h k := by
    intro l
    induction l with
    | nil =>
      intro k last hch
      rw [List.nil_append, List.chain_cons] at hch
      obtain ⟨c, hb, hr⟩ := edge_elim hch.1
      obtain ⟨hm, hk⟩ := byName_some_mem hb
      exact hk ▸ hh (c.key, last) (mem_edgePairs hm hr)
    | cons b t ih =>
      intro k last hch
      rw [List.cons_append, List.chain_cons] at hch
      have h1 := ih b last hch.2
      obtain ⟨c, hb, hr⟩ := edge_elim hch.1
      obtain ⟨hm, hk⟩ := byName_some_mem hb
      exact h1.trans (hk ▸ hh (c.key, b) (mem_edgePairs hm hr))
  rintro ⟨k, l, hch⟩
  exact lt_irrefl (h k) (aux l k k hch)

/-! ### Claim C9: the exclusion filter -/

/-- C9: `exclude(concepts, excludes)` returns exactly the records whose key
is not in the exclusion set, as a sublist of the input (relative order
preserved); with an empty exclusion set it is the identity, and applying it
twice with the same set equals applying it once. -/
theorem exclude_spec (concepts : List Record) (excludes : List String) :
    (∀ c, c ∈ exclude concepts excludes ↔ (c ∈ concepts ∧ c.key ∉ excludes)) ∧
    (exclude concepts excludes).Sublist concepts ∧
    exclude concepts [] = concepts ∧
    exclude (exclude concepts excludes) excludes = exclude concepts excludes := by
  refine ⟨?_, ?_, ?_, ?_⟩
  · intro c
    simp [exclude, List.mem_filter]
  · exact List.filter_sublist _
  · simp [exclude]
  · unfold exclude
    exact List.filter_eq_self.mpr (fun c hc => (List.mem_filter.mp hc).2)

/-! ### Concrete scenario collections -/

/-- A record with empty payload, used for concrete scenarios. -/
def mkRec (k m a : String) : Record :=
  { key := k, members := m, answers := a }

/-- The collection of claim C2: `c -> {d,e}`, `d -> {e,f}`, `f -> {c,e}`,
`e` with no referents (referents carried in `Answers`, as in the repository
test suite). -/
def scenarioC2 : List Record :=
  [ mkRec "c" "" "d;e", mkRec "d" "" "e;f", mkRec "f" "" "c;e", mkRec "e" "" "" ]

/-- C2 (code bug): on the claim scenario the raised message reports the
string `c --> d --> f --> d` (whose final hop `f --> d` is not even an edge
of the graph), because every stack level of `get_cycle` rebuilds the return
value as `this_branch + [name]`; the claimed string `c --> d --> f --> c`
does not occur at all, instead of occurring exactly once. -/
theorem detectCycles_scenarioC2 :
    detectCycles scenarioC2 10 =
      some (.error (cycleMsgBase ++ "c --> d --> f --> d")) ∧
    countOcc (cycleMsgBase ++ "c --> d --> f --> d") "c --> d --> f --> c" = 0 ∧
    countOcc (cycleMsgBase ++ "c --> d --> f --> d") "c --> d --> f --> d" = 1 :=
  ⟨by decide, by decide, by decide⟩

/-- The collection of the C3 counterexample: `a -> b`, `b -> c`, `c -> b`;
the only cycle is `b --> c --> b`. -/
def scenarioC3 : List Record :=
  [ mkRec "a" "b" "", mkRec "b" "c" "", mkRec "c" "b" "" ]

/-- C3 (code bug): the description produced for the cycle `b --> c --> b`
reached from root `a` is the whole traversal path `a --> b --> c` with the
root referent `b` appended, not the segment starting at the first
occurrence of the repeated key: the key `a` precedes that first occurrence. -/
theorem detectCycles_scenarioC3 :
    detectCycles scenarioC3 10 =
      some (.error (cycleMsgBase ++ "a --> b --> c --> b")) ∧
    (cycleMsgBase ++ "a --> b --> c --> b") ≠ (cycleMsgBase ++ "b --> c --> b") :=
  ⟨by decide, by decide⟩

/-- The collection of the C4 counterexample: `p -> q -> r` plus the isolated
record `s`; acyclic, unique keys, all referents resolve. -/
def scenarioC4 : List Record :=
  [ mkRec "p" "q" "", mkRec "q" "r" "", mkRec "r" "" "", mkRec "s" "" "" ]

/-- C4 counterexample (ranks stored in half-units; a stored value `2*m` is
the float rank `m`).  At the fixed point, `p` was bumped to rank 2.5 + 0.5 =
3.0 (stored 6), which EQUALS the integer rank 3.0 of the never-bumped record
`s` (initial index 3): a `+0.5` bump does collide with the integer rank of a
never-bumped record and the final ranks are not pairwise distinct. -/
theorem mrcd_rank_collision :
    mrcdLoop scenarioC4 10 (initOrder scenarioC4) =
      some (.ok [("p", 6), ("q", 5), ("r", 4), ("s", 6)]) ∧
    dictGet [("p", (6:ℤ)), ("q", 5), ("r", 4), ("s", 6)] "p" =
      dictGet [("p", (6:ℤ)), ("q", 5), ("r", 4), ("s", 6)] "s" :=
  ⟨by decide, by decide⟩

/-! ### Subgraph extraction: closure and termination -/

theorem mem_addSet {S : List String} {k x : String} :
    x ∈ addSet S k ↔ x ∈ S ∨ x = k := by
  unfold addSet
  by_cases h : k ∈ S
  · rw [if_pos h]
    constructor
    · exact Or.inl
    · rintro (h1 | h1)
      · exact h1
      · exact h1 ▸ h
  · rw [if_neg h]
    simp

theorem self_mem_addSet {S : List String} {k : String} : k ∈ addSet S k :=
  mem_addSet.mpr (Or.inr rfl)

theorem subset_addSet {S : List String} {k : String} : S ⊆ addSet S k :=
  fun _ hx => mem_addSet.mpr (Or.inl hx)

/-- A decidable certificate for `Resolves`. -/
theorem resolves_of_check (records : List Record)
    (h : records.all (fun c => (referants c).all
      (fun r => (byName records r).isSome)) = true) : Resolves records := by
  intro c hc r hr
  rw [List.all_eq_true] at h
  have h1 := h c hc
  rw [List.all_eq_true] at h1
  have h2 := h1 r hr
  cases hb : byName records r with
  | none => rw [hb] at h2; cases h2
  | some w => exact ⟨w, rfl⟩

/-- Every key in the final tree set was processed: its lookup succeeded and,
once the queue has drained, all its referents are in the set as well. -/
theorem treeAux_closed (records : List Record) :
    ∀ (fuel : Nat) (Q S S2 : List String),
      (∀ k ∈ S, ∃ u, byName records k = some u ∧
        ∀ r ∈ referants u, r ∈ S ∨ r ∈ Q) →
      treeAux records fuel Q S = some (.ok S2) →
      S ⊆ S2 ∧ (∀ k ∈ Q, k ∈ S2) ∧
        (∀ k ∈ S2, ∃ u, byName records k = some u ∧
          ∀ r ∈ referants u, r ∈ S2) := by
  intro fuel
  induction fuel with
  | zero => intro Q S S2 _ hrun; cases hrun
  | succ fuel ih =>
    intro Q S S2 hinv hrun
    cases Q with
    | nil =>
      simp only [treeAux] at hrun
      cases hrun
      refine ⟨fun _ h => h, fun k hk => absurd hk (List.not_mem_nil k), ?_⟩
      intro k hk
      obtain ⟨u, hu, hrefs⟩ := hinv k hk
      exact ⟨u, hu, fun r hr => (hrefs r hr).resolve_right
        (fun h => absurd h (List.not_mem_nil r))⟩
    | cons k Q2 =>
      simp only [treeAux] at hrun
      cases hb : byName records k with
      | none => rw [hb] at hrun; cases hrun
      | some u =>
        rw [hb] at hrun
        have hinv2 : ∀ x ∈ addSet S k, ∃ w, byName records x = some w ∧
            ∀ r ∈ referants w,
              r ∈ addSet S k ∨
                r ∈ Q2 ++ (referants u).filter (fun n => n ∉ addSet S k) := by
          intro x hx
          rcases mem_addSet.mp hx with hxS | hxk
          · obtain ⟨w, hw, hrefs⟩ := hinv x hxS
            refine ⟨w, hw, fun r hr => ?_⟩
            rcases hrefs r hr with h1 | h1
            · exact Or.inl (subset_addSet h1)
            · rcases List.mem_cons.mp h1 with h2 | h2
              · exact Or.inl (h2 ▸ self_mem_addSet)
              · exact Or.inr (List.mem_append_left _ h2)
          · subst hxk
            refine ⟨u, hb, fun r hr => ?_⟩
            by_cases hrS : r ∈ addSet S x
            · exact Or.inl hrS
            · exact Or.inr (List.mem_append_right _
                (List.mem_filter.mpr ⟨hr, by simpa using hrS⟩))
        obtain ⟨hsub, hq, hcl⟩ := ih _ _ _ hinv2 hrun
        refine ⟨fun x hx => hsub (subset_addSet hx), ?_, hcl⟩
        intro x hx
        rcases List.mem_cons.mp hx with h1 | h1
        · exact hsub (h1 ▸ self_mem_addSet)
        · exact hq x (List.mem_append_left _ h1)

/-- C6: whenever `get_all_concepts_in_tree` completes (all referent keys of
the collection resolve and the root key is present), the result contains the
root record and is closed under referent edges: no record in the result has
a referent whose record is outside the result. -/
theorem tree_contains_root_and_closed (records : List Record) (root : String)
    (fuel : Nat) (out : List Record)
    (hres : Resolves records) (hroot : root ∈ keysOf records)
    (hrun : getAllConceptsInTree records root fuel = some (.ok out)) :
    (∃ rr, byName records root = some rr ∧ rr ∈ out) ∧
    (∀ u ∈ out, ∀ r ∈ referants u, ∃ w, byName records r = some w ∧ w ∈ out) := by
  unfold getAllConceptsInTree at hrun
  cases ht : treeAux records fuel [root] [] with
  | none => rw [ht] at hrun; cases hrun
  | some res =>
    rw [ht] at hrun
    cases res with
    | error e => cases hrun
    | ok S2 =>
      simp only at hrun
      cases hm : mapO (byName records) S2 with
      | none => rw [hm] at hrun; cases hrun
      | some out2 =>
        rw [hm] at hrun
        cases hrun
        obtain ⟨-, hq, hcl⟩ :=
          treeAux_closed records fuel [root] [] S2 (by intro k hk; cases hk) ht
        have hrootS : root ∈ S2 := hq root (by simp)
        constructor
        · obtain ⟨rr, hrr, -⟩ := hcl root hrootS
          obtain ⟨b, hbmem, hbeq⟩ := mapO_forall_mem hm hrootS
          rw [hrr] at hbeq
          cases hbeq
          exact ⟨rr, hrr, hbmem⟩
        · intro u hu r hr
          obtain ⟨k, hkS, hku⟩ := mapO_mem hm hu
          obtain ⟨u2, hu2, hrefs⟩ := hcl k hkS
          rw [hku] at hu2
          cases hu2
          have hrS : r ∈ S2 := hrefs r hr
          obtain ⟨w, hw, -⟩ := hcl r hrS
          obtain ⟨b, hbmem, hbeq⟩ := mapO_forall_mem hm hrS
          rw [hw] at hbeq
          cases hbeq
          exact ⟨w, hw, hbmem⟩

theorem addSet_of_mem {S : List String} {k : String} (h : k ∈ S) :
    addSet S k = S := if_pos h

theorem addSet_toFinset {S : List String} {k : String} :
    (addSet S k).toFinset = insert k S.toFinset := by
  unfold addSet
  by_cases h : k ∈ S
  · rw [if_pos h]
    exact (Finset.insert_eq_self.mpr (by simpa using h)).symm
  · rw [if_neg h]
    simp only [List.toFinset_append, List.toFinset_cons, List.toFinset_nil]
    rw [Finset.union_comm]
    simp [Finset.insert_eq]

/-- Inner termination argument: with the tree set fixed, every dequeue of a
name already in the set strictly shrinks the number of queued names that are
in the set (newly queued names never are), so the run either drains the
queue or grows the set (the `escape` hypothesis). -/
theorem treeAux_term_inner (records : List Record) (hres : Resolves records)
    (S0 : List String) (hS0 : ∀ k ∈ S0, k ∈ keysOf records)
    (escape : ∀ (Q S : List String), (∀ k ∈ Q, k ∈ keysOf records) →
      (∀ k ∈ S, k ∈ keysOf records) → S0.toFinset ⊂ S.toFinset →
      ∃ fuel S2, treeAux records fuel Q S = some (.ok S2) ∧
        ∀ k ∈ S2, k ∈ keysOf records) :
    ∀ (m : ℕ) (Q : List String), (∀ k ∈ Q, k ∈ keysOf records) →
      Q.countP (fun k => decide (k ∈ S0)) ≤ m →
      ∃ fuel S2, treeAux records fuel Q S0 = some (.ok S2) ∧
        ∀ k ∈ S2, k ∈ keysOf records := by
  have hstep : ∀ (Q2 : List String) (k : String), k ∈ keysOf records →
      (∀ x ∈ Q2, x ∈ keysOf records) → k ∉ S0 →
      ∃ fuel S2, treeAux records (fuel + 1) (k :: Q2) S0 = some (.ok S2) ∧
        ∀ x ∈ S2, x ∈ keysOf records := by
    intro Q2 k hkU hQ2 hkS
    obtain ⟨u, hu⟩ := byName_mem_keys hkU
    have huMem : u ∈ records := (byName_some_mem hu).1
    have hQ' : ∀ x ∈ Q2 ++ (referants u).filter (fun nn => nn ∉ addSet S0 k),
        x ∈ keysOf records := by
      intro x hx
      rcases List.mem_append.mp hx with h1 | h1
      · exact hQ2 x h1
      · obtain ⟨w, hw⟩ := hres u huMem x (List.mem_filter.mp h1).1
        obtain ⟨hm2, hk2⟩ := byName_some_mem hw
        exact hk2 ▸ List.mem_map_of_mem Record.key hm2
    have hS' : ∀ x ∈ addSet S0 k, x ∈ keysOf records := by
      intro x hx
      rcases mem_addSet.mp hx with h1 | h1
      · exact hS0 x h1
      · exact h1 ▸ hkU
    have hsub : S0.toFinset ⊂ (addSet S0 k).toFinset := by
      rw [addSet_toFinset]
      exact Finset.ssubset_insert (by simpa using hkS)
    obtain ⟨fuel, S2, hrun, hk2⟩ := escape _ _ hQ' hS' hsub
    refine ⟨fuel, S2, ?_, hk2⟩
    simp only [treeAux, hu]
    exact hrun
  intro m
  induction m with
  | zero =>
    intro Q hQ hcount
    cases Q with
    | nil => exact ⟨1, S0, by simp [treeAux], hS0⟩
    | cons k Q2 =>
      by_cases hkS : k ∈ S0
      · exfalso
        rw [List.countP_cons_of_pos _ _ (by simpa using hkS)] at hcount
        omega
      · obtain ⟨fuel, S2, hrun, hk2⟩ :=
          hstep Q2 k (hQ k (by simp)) (fun x hx => hQ x (by simp [hx])) hkS
        exact ⟨fuel + 1, S2, hrun, hk2⟩
  | succ m ihm =>
    intro Q hQ hcount
    cases Q with
    | nil => exact ⟨1, S0, by simp [treeAux], hS0⟩
    | cons k Q2 =>
      by_cases hkS : k ∈ S0
      · obtain ⟨u, hu⟩ := byName_mem_keys (hQ k (by simp))
        have huMem : u ∈ records := (byName_some_mem hu).1
        have haddeq : addSet S0 k = S0 := addSet_of_mem hkS
        have hQ' : ∀ x ∈ Q2 ++ (referants u).filter (fun nn => nn ∉ addSet S0 k),
            x ∈ keysOf records := by
          intro x hx
          rcases List.mem_append.mp hx with h1 | h1
          · exact hQ x (by simp [h1])
          · obtain ⟨w, hw⟩ := hres u huMem x (List.mem_filter.mp h1).1
            obtain ⟨hm2, hk2⟩ := byName_some_mem hw
            exact hk2 ▸ List.mem_map_of_mem Record.key hm2
        have hcount' : (Q2 ++ (referants u).filter
            (fun nn => nn ∉ addSet S0 k)).countP (fun x => decide (x ∈ S0)) ≤ m := by
          rw [List.countP_append]
          have hzero : ((referants u).filter (fun nn => nn ∉ addSet S0 k)).countP
              (fun x => decide (x ∈ S0)) = 0 := by
            rw [List.countP_eq_zero]
            intro a ha
            have := (List.mem_filter.mp ha).2
            rw [haddeq] at this
            simpa using this
          rw [hzero]
          rw [List.countP_cons_of_pos _ _ (by simpa using hkS)] at hcount
          omega
        obtain ⟨fuel, S2, hrun, hk2⟩ := ihm _ hQ' hcount'
        refine ⟨fuel + 1, S2, ?_, hk2⟩
        simp only [treeAux, hu]
        rw [haddeq] at hrun ⊢
        exact hrun
      · obtain ⟨fuel, S2, hrun, hk2⟩ :=
          hstep Q2 k (hQ k (by simp)) (fun x hx => hQ x (by simp [hx])) hkS
        exact ⟨fuel + 1, S2, hrun, hk2⟩

/-- Outer termination argument: the tree set only grows, and is bounded by
the key set of the collection. -/
theorem treeAux_term_outer (records : List Record) (hres : Resolves records) :
    ∀ (n : ℕ) (S Q : List String), (∀ k ∈ Q, k ∈ keysOf records) →
      (∀ k ∈ S, k ∈ keysOf records) →
      ((keysOf records).toFinset \ S.toFinset).card ≤ n →
      ∃ fuel S2, treeAux records fuel Q S = some (.ok S2) ∧
        ∀ k ∈ S2, k ∈ keysOf records := by
  intro n
  induction n with
  | zero =>
    intro S Q hQ hS hcard
    refine treeAux_term_inner records hres S hS ?_ _ Q hQ le_rfl
    intro Q' S' hQ' hS' hsub
    exfalso
    obtain ⟨x, hxS', hxS⟩ := Finset.exists_of_ssubset hsub
    have hxU : x ∈ (keysOf records).toFinset := by
      simp only [List.mem_toFinset] at hxS'
      simpa using hS' x hxS'
    have : x ∈ (keysOf records).toFinset \ S.toFinset :=
      Finset.mem_sdiff.mpr ⟨hxU, hxS⟩
    have := Finset.card_pos.mpr ⟨x, this⟩
    omega
  | succ n ihn =>
    intro S Q hQ hS hcard
    refine treeAux_term_inner records hres S hS ?_ _ Q hQ le_rfl
    intro Q' S' hQ' hS' hsub
    refine ihn S' Q' hQ' hS' ?_
    have hsdiff : (keysOf records).toFinset \ S'.toFinset ⊂
        (keysOf records).toFinset \ S.toFinset := by
      refine Finset.ssubset_iff_of_subset
        (Finset.sdiff_subset_sdiff (le_refl _) hsub.subset) |>.mpr ?_
      obtain ⟨x, hxS', hxS⟩ := Finset.exists_of_ssubset hsub
      have hxU : x ∈ (keysOf records).toFinset := by
        simp only [List.mem_toFinset] at hxS'
        simpa using hS' x hxS'
      refine ⟨x, Finset.mem_sdiff.mpr ⟨hxU, hxS⟩, ?_⟩
      simp only [Finset.mem_sdiff, not_and, not_not]
      intro _
      exact hxS'
    have := Finset.card_lt_card hsdiff
    omega

/-- C10: `get_all_concepts_in_tree` terminates (some fuel completes the run
with a result) for every finite collection whose referent keys resolve and
whose root key is present, with no acyclicity assumption: keys enter the
tree set at most once each, and once the set is stable every dequeue of an
already-seen name strictly shrinks the queue share of seen names. -/
theorem tree_terminates (records : List Record) (root : String)
    (hres : Resolves records) (hroot : root ∈ keysOf records) :
    ∃ fuel out, getAllConceptsInTree records root fuel = some (.ok out) := by
  obtain ⟨fuel, S2, hrun, hS2⟩ :=
    treeAux_term_outer records hres ((keysOf records).toFinset \
        (([] : List String)).toFinset).card [] [root]
      (by intro k hk; rcases List.mem_cons.mp hk with h | h;
          exacts [h ▸ hroot, absurd h (List.not_mem_nil k)])
      (by intro k hk; cases hk) le_rfl
  obtain ⟨out, hout⟩ := mapO_some_of
    (fun k hk => byName_mem_keys (hS2 k hk))
  refine ⟨fuel, out, ?_⟩
  have hout2 : mapO (byName records) S2 = some out := hout
  unfold getAllConceptsInTree
  rw [hrun]
  simp only [hout2]

/-- The acyclic 5-record chain used by the repository test suite:
`a -> {b,c}`, `b -> {d,e}`, `c -> {d,e}`, `d` and `e` with no referents. -/
def scenarioChain : List Record :=
  [ mkRec "a" "b;c" "", mkRec "b" "d;e" "", mkRec "c" "" "d;e",
    mkRec "d" "" "", mkRec "e" "" "" ]

/-- Witness for C6 at a concrete input: the reachable tree of root `b` in
the 5-record chain is `{b, d, e}`, contains the root record and is closed
under referent edges. -/
theorem tree_c6_witness :
    getAllConceptsInTree scenarioChain "b" 20 =
      some (.ok [mkRec "b" "d;e" "", mkRec "d" "" "", mkRec "e" "" ""]) ∧
    ((∃ rr, byName scenarioChain "b" = some rr ∧
        rr ∈ [mkRec "b" "d;e" "", mkRec "d" "" "", mkRec "e" "" ""]) ∧
      (∀ u ∈ [mkRec "b" "d;e" "", mkRec "d" "" "", mkRec "e" "" ""],
        ∀ r ∈ referants u, ∃ w, byName scenarioChain r = some w ∧
          w ∈ [mkRec "b" "d;e" "", mkRec "d" "" "", mkRec "e" "" ""])) :=
  ⟨by decide, tree_contains_root_and_closed scenarioChain "b" 20 _
    (resolves_of_check _ (by decide)) (by decide) (by decide)⟩

/-- Witness for C10 at a concrete CYCLIC input (the C2 scenario, whose
reference graph has the cycle c -> d -> f -> c): extraction from root `c`
still terminates. -/
theorem tree_terminates_witness :
    Resolves scenarioC2 ∧ "c" ∈ keysOf scenarioC2 ∧
    (∃ fuel out, getAllConceptsInTree scenarioC2 "c" fuel = some (.ok out)) :=
  ⟨resolves_of_check _ (by decide), by decide,
    tree_terminates scenarioC2 "c" (resolves_of_check _ (by decide)) (by decide)⟩

/-! ### Rank-relaxation: invariants and termination -/

theorem maxI_ge : ∀ (vs : List ℤ) (v0 v : ℤ), v ∈ v0 :: vs → v ≤ maxI v0 vs := by
  intro vs
  induction vs with
  | nil =>
    intro v0 v hv
    rcases List.mem_cons.mp hv with h | h
    · exact h ▸ le_rfl
    · cases h
  | cons x xs ih =>
    intro v0 v hv
    show v ≤ maxI (max v0 x) xs
    rcases List.mem_cons.mp hv with h | h
    · exact h ▸ (le_max_left v0 x).trans (ih (max v0 x) _ (by simp))
    · rcases List.mem_cons.mp h with h1 | h1
      · exact h1 ▸ (le_max_right v0 x).trans (ih (max v0 x) _ (by simp))
      · exact ih (max v0 x) v (by simp [h1])

theorem maxI_mem : ∀ (vs : List ℤ) (v0 : ℤ), maxI v0 vs ∈ v0 :: vs := by
  intro vs
  induction vs with
  | nil => intro v0; simp [maxI]
  | cons x xs ih =>
    intro v0
    have h := ih (max v0 x)
    rcases List.mem_cons.mp h with h1 | h1
    · rcases max_choice v0 x with h2 | h2
      · exact List.mem_cons.mpr (Or.inl (by rw [show maxI v0 (x :: xs) = maxI (max v0 x) xs from rfl, h1, h2]))
      · refine List.mem_cons.mpr (Or.inr (List.mem_cons.mpr (Or.inl ?_)))
        rw [show maxI v0 (x :: xs) = maxI (max v0 x) xs from rfl, h1, h2]
    · exact List.mem_cons.mpr (Or.inr (List.mem_cons.mpr (Or.inr h1)))

theorem entries_eq_of_fst_nodup {d : List (String × ℤ)}
    (hnd : (d.map Prod.fst).Nodup) {p q : String × ℤ}
    (hp : p ∈ d) (hq : q ∈ d) (h : p.1 = q.1) : p = q := by
  induction d with
  | nil => cases hp
  | cons x t ih =>
    simp only [List.map_cons, List.nodup_cons] at hnd
    rcases List.mem_cons.mp hp with h1 | h1 <;> rcases List.mem_cons.mp hq with h2 | h2
    · rw [h1, h2]
    · exfalso
      apply hnd.1
      rw [show x.1 = q.1 from h1 ▸ h]
      exact List.mem_map_of_mem Prod.fst h2
    · exfalso
      apply hnd.1
      rw [show x.1 = p.1 from h2 ▸ h.symm]
      exact List.mem_map_of_mem Prod.fst h1
    · exact ih hnd.2 h1 h2

/-- Sum of the rank values of a dict. -/
def sumVal (d : List (String × ℤ)) : ℤ :=
  (d.map (fun p => p.2)).sum

theorem sumVal_dictInsert {d : List (String × ℤ)}
    (hnd : (d.map Prod.fst).Nodup) {k : String} {cur v : ℤ}
    (h : dictGet d k = some cur) :
    sumVal (dictInsert d k v) = sumVal d - cur + v := by
  induction d with
  | nil => cases h
  | cons p t ih =>
    obtain ⟨k2, v2⟩ := p
    simp only [List.map_cons, List.nodup_cons] at hnd
    by_cases hk : k2 = k
    · subst hk
      have hcur : cur = v2 := by
        show _ = _
        have := h
        show cur = v2
        rw [show dictGet ((k2, v2) :: t) k2 =
            (List.find? (fun p => decide (p.1 = k2)) ((k2, v2) :: t)).map (fun p => p.2)
          from rfl] at this
        rw [List.find?_cons_of_pos _ (by simp)] at this
        simpa using this.symm
      subst hcur
      have hins : dictInsert ((k2, cur) :: t) k2 v = (k2, v) :: t := by
        simp [dictInsert]
      rw [hins]
      simp only [sumVal, List.map_cons, List.sum_cons]
      ring
    · have hget : dictGet t k = some cur := by
        rw [show dictGet ((k2, v2) :: t) k =
            (List.find? (fun p => decide (p.1 = k)) ((k2, v2) :: t)).map (fun p => p.2)
          from rfl] at h
        rw [List.find?_cons_of_neg _ (by simpa using hk)] at h
        exact h
      simp only [dictInsert, if_neg hk, sumVal, List.map_cons, List.sum_cons]
      have := ih hnd.2 hget
      simp only [sumVal] at this
      rw [this]
      ring

/-- The value certificate the relaxation maintains for every dict entry:
the stored half-unit rank is twice an original index plus the length of an
edge path from the entry key. -/
def PathVal (records : List Record) (k : String) (v : ℤ) : Prop :=
  ∃ (l : List String) (i : ℕ), List.Chain (edge records) k l ∧
    i < records.length ∧ v = 2 * (i : ℤ) + l.length

/-- The loop invariant for the order dict. -/
def DInv (records : List Record) (d : List (String × ℤ)) : Prop :=
  d.map Prod.fst = keysOf records ∧ ∀ p ∈ d, PathVal records p.1 p.2

theorem pathVal_nonneg {records : List Record} {k : String} {v : ℤ}
    (h : PathVal records k v) : 0 ≤ v := by
  obtain ⟨l, i, -, -, hv⟩ := h
  have h1 : (0 : ℤ) ≤ 2 * (i : ℤ) := by positivity
  have h2 : (0 : ℤ) ≤ (l.length : ℤ) := by positivity
  omega

theorem pathVal_bound {records : List Record} (hnc : ¬ HasCycle records)
    (hres : Resolves records) {k : String} {v : ℤ}
    (hk : k ∈ keysOf records) (h : PathVal records k v) :
    v ≤ 3 * records.length := by
  obtain ⟨l, i, hch, hi, hv⟩ := h
  have hlen := chain_length_le hnc hres hk hch
  have h1 : (l.length : ℤ) + 1 ≤ records.length := by exact_mod_cast hlen
  have h2 : (i : ℤ) < records.length := by exact_mod_cast hi
  omega

theorem dinv_initOrder {records : List Record} (hnd : (keysOf records).Nodup) :
    DInv records (initOrder records) := by
  constructor
  · exact initOrder_map_fst hnd
  · intro p hp
    rw [initOrder_eq hnd] at hp
    obtain ⟨ic, hic, hfp⟩ := List.mem_map.mp hp
    have hgl := List.mem_enum_iff_getElem?.mp hic
    have hlt : ic.1 < records.length := by
      by_contra hge
      rw [List.getElem?_eq_none (by omega)] at hgl
      cases hgl
    refine ⟨[], ic.1, List.Chain.nil, hlt, ?_⟩
    rw [← hfp]
    simp

/-- A pass that reports no change did nothing: it started unflagged, left
the dict untouched, and every record with referents already sits strictly
above all of them. -/
theorem onePassAux_false :
    ∀ (rs : List Record) (d : List (String × ℤ)) (ch : Bool)
      (d2 : List (String × ℤ)),
      onePassAux rs d ch = .ok (d2, false) →
      ch = false ∧ d2 = d ∧
        ∀ c ∈ rs, referants c ≠ [] →
          ∃ vals cur, mapO (dictGet d) (referants c) = some vals ∧
            dictGet d c.key = some cur ∧ ∀ v ∈ vals, v < cur := by
  intro rs
  induction rs with
  | nil =>
    intro d ch d2 h
    simp only [onePassAux] at h
    cases h
    exact ⟨rfl, rfl, fun c hc => absurd hc (List.not_mem_nil c)⟩
  | cons c cs ih =>
    intro d ch d2 h
    simp only [onePassAux] at h
    split at h
    · rename_i hr
      obtain ⟨hch, hd, hrest⟩ := ih d ch d2 h
      refine ⟨hch, hd, ?_⟩
      intro x hx hne
      rcases List.mem_cons.mp hx with h1 | h1
      · exact absurd (h1 ▸ hr) hne
      · exact hrest x h1 hne
    · rename_i r0 rs2 hr
      split at h
      · cases h
      · rename_i hm
        exact absurd (mapO_length hm) (by simp)
      · rename_i vals v0 vs hm
        split at h
        · cases h
        · rename_i cur hc
          split at h
          · obtain ⟨hch, -, -⟩ := ih _ _ _ h
            cases hch
          · rename_i hle
            obtain ⟨hch, hd, hrest⟩ := ih d ch d2 h
            refine ⟨hch, hd, ?_⟩
            intro x hx hne
            rcases List.mem_cons.mp hx with h1 | h1
            · subst h1
              refine ⟨v0 :: vs, cur, by rw [hr]; exact hm, hc, ?_⟩
              intro v hv
              exact lt_of_le_of_lt (maxI_ge vs v0 v hv) (not_le.mp hle)
            · exact hrest x h1 hne

/-- A pass never changes the key sequence of the dict. -/
theorem onePassAux_keys :
    ∀ (rs : List Record) (d : List (String × ℤ)) (ch : Bool)
      (d2 : List (String × ℤ)) (ch2 : Bool),
      onePassAux rs d ch = .ok (d2, ch2) →
      d2.map Prod.fst = d.map Prod.fst := by
  intro rs
  induction rs with
  | nil =>
    intro d ch d2 ch2 h
    simp only [onePassAux] at h
    cases h
    rfl
  | cons c cs ih =>
    intro d ch d2 ch2 h
    simp only [onePassAux] at h
    split at h
    · exact ih _ _ _ _ h
    · rename_i r0 rs2 hr
      split at h
      · cases h
      · exact ih _ _ _ _ h
      · rename_i vals v0 vs hm
        split at h
        · cases h
        · rename_i cur hc
          split at h
          · have hkey : c.key ∈ d.map Prod.fst := by
              by_contra hnot
              rw [dictGet_none_iff.mpr hnot] at hc
              cases hc
            rw [ih _ _ _ _ h]
            exact dictInsert_map_fst_mem hkey
          · exact ih _ _ _ _ h

/-- Whatever dict a successful run of the while loop returns is a fixed
point of the pass. -/
theorem mrcdLoop_post (records : List Record) :
    ∀ (fuel : Nat) (d d2 : List (String × ℤ)),
      mrcdLoop records fuel d = some (.ok d2) →
      onePass records d2 = .ok (d2, false) := by
  intro fuel
  induction fuel with
  | zero => intro d d2 h; cases h
  | succ fuel ih =>
    intro d d2 h
    simp only [mrcdLoop] at h
    cases hp : onePass records d with
    | error e => rw [hp] at h; cases h
    | ok p =>
      obtain ⟨dd, chb⟩ := p
      rw [hp] at h
      cases chb with
      | false =>
        simp only at h
        cases h
        obtain ⟨-, hd, -⟩ := onePassAux_false records d false d2 hp
        subst hd
        exact hp
      | true =>
        simp only at h
        exact ih _ _ h

/-- A successful run of the while loop preserves the dict keys. -/
theorem mrcdLoop_keys (records : List Record) :
    ∀ (fuel : Nat) (d d2 : List (String × ℤ)),
      mrcdLoop records fuel d = some (.ok d2) →
      d2.map Prod.fst = d.map Prod.fst := by
  intro fuel
  induction fuel with
  | zero => intro d d2 h; cases h
  | succ fuel ih =>
    intro d d2 h
    simp only [mrcdLoop] at h
    cases hp : onePass records d with
    | error e => rw [hp] at h; cases h
    | ok p =>
      obtain ⟨dd, chb⟩ := p
      rw [hp] at h
      cases chb with
      | false =>
        simp only at h
        cases h
        exact onePassAux_keys records d false d2 false hp
      | true =>
        simp only at h
        exact (ih _ _ h).trans (onePassAux_keys records d false dd true hp)

/-- Running one pass from any state with the invariant succeeds, preserves
the invariant, and never lowers the rank sum; a pass that newly sets the
change flag strictly raises it. -/
theorem onePassAux_run (records : List Record) (hnd : (keysOf records).Nodup)
    (hres : Resolves records) :
    ∀ (rs : List Record), (∀ c ∈ rs, c ∈ records) →
      ∀ (d : List (String × ℤ)) (ch : Bool), DInv records d →
      ∃ d2 ch2, onePassAux rs d ch = .ok (d2, ch2) ∧ DInv records d2 ∧
        sumVal d ≤ sumVal d2 ∧
        (ch2 = true → ch = false → sumVal d < sumVal d2) := by
  intro rs
  induction rs with
  | nil =>
    intro hrs d ch hinv
    refine ⟨d, ch, by simp [onePassAux], hinv, le_rfl, ?_⟩
    intro h1 h2
    rw [h1] at h2
    cases h2
  | cons c cs ih =>
    intro hrs d ch hinv
    have hc : c ∈ records := hrs c (by simp)
    have hcs : ∀ x ∈ cs, x ∈ records := fun x hx => hrs x (by simp [hx])
    cases hr : referants c with
    | nil =>
      obtain ⟨d2, ch2, hrun, hinv2, hle, himp⟩ := ih hcs d ch hinv
      exact ⟨d2, ch2, by simp only [onePassAux, hr]; exact hrun, hinv2, hle, himp⟩
    | cons r0 rs2 =>
      have hkeys : ∀ r ∈ r0 :: rs2, ∃ v, dictGet d r = some v := by
        intro r hrr
        have hrmem : r ∈ referants c := hr ▸ hrr
        obtain ⟨w, hw⟩ := hres c hc r hrmem
        obtain ⟨hm2, hk2⟩ := byName_some_mem hw
        have hrd : r ∈ d.map Prod.fst := by
          rw [hinv.1]
          exact hk2 ▸ List.mem_map_of_mem Record.key hm2
        cases hg : dictGet d r with
        | none => exact absurd hrd (dictGet_none_iff.mp hg)
        | some v => exact ⟨v, rfl⟩
      obtain ⟨vals, hm⟩ := mapO_some_of hkeys
      have hckey : c.key ∈ d.map Prod.fst := by
        rw [hinv.1]
        exact List.mem_map_of_mem Record.key hc
      have hcur2 : ∃ cur, dictGet d c.key = some cur := by
        cases hg : dictGet d c.key with
        | none => exact absurd hckey (dictGet_none_iff.mp hg)
        | some v => exact ⟨v, rfl⟩
      obtain ⟨cur, hcu⟩ := hcur2
      cases vals with
      | nil =>
        exfalso
        have := mapO_length hm
        simp at this
      | cons v0 vs =>
        by_cases hle : cur ≤ maxI v0 vs
        · have hmax_mem : maxI v0 vs ∈ v0 :: vs := maxI_mem vs v0
          obtain ⟨rstar, hrstar_mem, hrstar_get⟩ := mapO_mem hm hmax_mem
          have hentry : (rstar, maxI v0 vs) ∈ d := dictGet_some_mem hrstar_get
          obtain ⟨lstar, i, hch2, hi, hv⟩ := hinv.2 (rstar, maxI v0 vs) hentry
          have hedge : edge records c.key rstar :=
            edge_intro (byName_nodup hnd hc) (hr ▸ hrstar_mem)
          have hpv : PathVal records c.key (maxI v0 vs + 1) := by
            refine ⟨rstar :: lstar, i, List.chain_cons.mpr ⟨hedge, hch2⟩, hi, ?_⟩
            simp only [List.length_cons] at hv ⊢
            push_cast at hv ⊢
            omega
          have hdnodup : (d.map Prod.fst).Nodup := by
            rw [hinv.1]
            exact hnd
          have hinv2 : DInv records (dictInsert d c.key (maxI v0 vs + 1)) := by
            constructor
            · rw [dictInsert_map_fst_mem hckey]
              exact hinv.1
            · intro p hp
              rcases mem_dictInsert hp with h1 | h1
              · rw [h1]
                exact hpv
              · exact hinv.2 p h1
          have hsum : sumVal (dictInsert d c.key (maxI v0 vs + 1)) =
              sumVal d - cur + (maxI v0 vs + 1) :=
            sumVal_dictInsert hdnodup hcu
          obtain ⟨d2, ch2, hrun, hinv3, hle2, -⟩ :=
            ih hcs (dictInsert d c.key (maxI v0 vs + 1)) true hinv2
          refine ⟨d2, ch2, ?_, hinv3, ?_, ?_⟩
          · simp only [onePassAux, hr, hm, hcu, if_pos hle]
            exact hrun
          · have : sumVal d < sumVal (dictInsert d c.key (maxI v0 vs + 1)) := by
              omega
            omega
          · intro _ _
            have : sumVal d < sumVal (dictInsert d c.key (maxI v0 vs + 1)) := by
              omega
            omega
        · obtain ⟨d2, ch2, hrun, hinv2, hle2, himp⟩ := ih hcs d ch hinv
          refine ⟨d2, ch2, ?_, hinv2, hle2, himp⟩
          simp only [onePassAux, hr, hm, hcu, if_neg hle]
          exact hrun

/-- Under the invariant the rank sum is bounded. -/
theorem sumVal_le_of_dinv {records : List Record} (hnc : ¬ HasCycle records)
    (hres : Resolves records) {d : List (String × ℤ)} (hinv : DInv records d) :
    sumVal d ≤ 3 * records.length * records.length := by
  have hlen : d.length = records.length := by
    have h1 : (d.map Prod.fst).length = (keysOf records).length := by rw [hinv.1]
    simpa [keysOf] using h1
  have hbound : ∀ v ∈ d.map (fun p => p.2), v ≤ 3 * (records.length : ℤ) := by
    intro v hv
    obtain ⟨p, hp, hpv⟩ := List.mem_map.mp hv
    have hk : p.1 ∈ keysOf records := by
      rw [← hinv.1]
      exact List.mem_map_of_mem Prod.fst hp
    have := pathVal_bound hnc hres hk (hinv.2 p hp)
    omega
  have hs := List.sum_le_card_nsmul (d.map (fun p => p.2))
    (3 * (records.length : ℤ)) hbound
  simp only [List.length_map, smul_eq_mul, hlen] at hs
  unfold sumVal
  calc (d.map (fun p => p.2)).sum ≤ records.length * (3 * records.length) := hs
    _ = 3 * records.length * records.length := by ring

/-- For an acyclic collection with unique, resolving keys, the relaxation
loop reaches a fixed point in finitely many passes. -/
theorem mrcdLoop_term (records : List Record) (hnd : (keysOf records).Nodup)
    (hres : Resolves records) (hnc : ¬ HasCycle records) :
    ∀ (N : ℕ) (d : List (String × ℤ)), DInv records d →
      ((3 * (records.length : ℤ) * records.length + 1) - sumVal d).toNat ≤ N →
      ∃ fuel d2, mrcdLoop records fuel d = some (.ok d2) ∧ DInv records d2 ∧
        onePass records d2 = .ok (d2, false) := by
  intro N
  induction N with
  | zero =>
    intro d hinv hN
    obtain ⟨d2, ch2, hrun, hinv2, hle, himp⟩ :=
      onePassAux_run records hnd hres records (fun c hc => hc) d false hinv
    cases ch2 with
    | false =>
      obtain ⟨-, hd, -⟩ := onePassAux_false records d false d2 hrun
      subst hd
      refine ⟨1, d2, ?_, hinv2, hrun⟩
      show (match onePass records d2 with
        | .error e => some (.error e)
        | .ok (d3, false) => some (.ok d3)
        | .ok (d3, true) => mrcdLoop records 0 d3) = some (.ok d2)
      rw [show onePass records d2 = .ok (d2, false) from hrun]
    | true =>
      exfalso
      have hstrict := himp rfl rfl
      have hb := sumVal_le_of_dinv hnc hres hinv
      omega
  | succ N ihN =>
    intro d hinv hN
    obtain ⟨d2, ch2, hrun, hinv2, hle, himp⟩ :=
      onePassAux_run records hnd hres records (fun c hc => hc) d false hinv
    cases ch2 with
    | false =>
      obtain ⟨-, hd, -⟩ := onePassAux_false records d false d2 hrun
      subst hd
      refine ⟨1, d2, ?_, hinv2, hrun⟩
      show (match onePass records d2 with
        | .error e => some (.error e)
        | .ok (d3, false) => some (.ok d3)
        | .ok (d3, true) => mrcdLoop records 0 d3) = some (.ok d2)
      rw [show onePass records d2 = .ok (d2, false) from hrun]
    | true =>
      have hstrict := himp rfl rfl
      have hb := sumVal_le_of_dinv hnc hres hinv2
      obtain ⟨fuel, d3, hrun3, hinv3, hfix⟩ := ihN d2 hinv2 (by omega)
      refine ⟨fuel + 1, d3, ?_, hinv3, hfix⟩
      show (match onePass records d with
        | .error e => some (.error e)
        | .ok (d4, false) => some (.ok d4)
        | .ok (d4, true) => mrcdLoop records fuel d4) = some (.ok d3)
      rw [show onePass records d = .ok (d2, true) from hrun]
      exact hrun3

/-- At a fixed point of the pass, every record with referents has a rank
strictly above each referent rank. -/
theorem fixpoint_ranks (records : List Record) {d2 : List (String × ℤ)}
    (hfix : onePass records d2 = .ok (d2, false)) :
    ∀ c ∈ records, ∀ r ∈ referants c, ∃ vr vc,
      dictGet d2 r = some vr ∧ dictGet d2 c.key = some vc ∧ vr < vc := by
  intro c hc r hrr
  obtain ⟨-, -, hrest⟩ := onePassAux_false records d2 false d2 hfix
  have hne : referants c ≠ [] := by
    intro h
    rw [h] at hrr
    cases hrr
  obtain ⟨vals, cur, hm, hcu, hlt⟩ := hrest c hc hne
  obtain ⟨vr, hvr_mem, hvr⟩ := mapO_forall_mem hm hrr
  exact ⟨vr, cur, hvr, hcu, hlt vr hvr_mem⟩

instance : IsTotal (String × ℤ) (fun a b => a.2 ≤ b.2) :=
  ⟨fun a b => le_total a.2 b.2⟩

instance : IsTrans (String × ℤ) (fun a b => a.2 ≤ b.2) :=
  ⟨fun _ _ _ hab hbc => le_trans hab hbc⟩

theorem mapO_eq_some (f : α → Option β) : ∀ (l : List α) (m : List β),
    m.length = l.length →
    (∀ i (hi : i < l.length) (hm : i < m.length), f (l[i]) = some (m[i])) →
    mapO f l = some m := by
  intro l
  induction l with
  | nil =>
    intro m hlen _
    cases m with
    | nil => rfl
    | cons b bs => simp at hlen
  | cons a t ihl =>
    intro m hlen hpt
    cases m with
    | nil => simp at hlen
    | cons b mt =>
      have h0 := hpt 0 (by simp) (by simp)
      simp only [List.getElem_cons_zero] at h0
      have ht := ihl mt (by simpa using hlen)
        (fun i hi hm => by simpa using hpt (i + 1) (by simpa using hi) (by simpa using hm))
      simp [mapO, h0, ht]

theorem findIdx_map_eq (f : α → β) (p : β → Bool) : ∀ l : List α,
    (l.map f).findIdx p = l.findIdx (fun a => p (f a)) := by
  intro l
  induction l with
  | nil => rfl
  | cons a t ih => simp [List.findIdx_cons, ih]

/-- In a list with distinct keys, `findIdx` on the key of the j-th record
finds exactly j. -/
theorem findIdx_key_self {out : List Record} (hnd : (keysOf out).Nodup)
    {j : Nat} (hj : j < out.length) :
    out.findIdx (fun x => x.key = (out[j]).key) = j := by
  have hex : ∃ x ∈ out, (fun x : Record => decide (x.key = (out[j]).key)) x := by
    exact ⟨out[j], List.getElem_mem hj, by simp⟩
  have hlt := List.findIdx_lt_length_of_exists hex
  have hkey := @List.findIdx_getElem _ _ _ hlt
  simp only [decide_eq_true_eq] at hkey
  by_contra hne
  have hmapnd : (out.map Record.key).Nodup := hnd
  have hlt2 : out.findIdx (fun x => x.key = (out[j]).key) <
      (out.map Record.key).length := by simpa using hlt
  have hj2 : j < (out.map Record.key).length := by simpa using hj
  have hi1 : (out.map Record.key)[out.findIdx fun x => x.key = (out[j]).key] =
      (out.map Record.key)[j] := by
    simp only [List.getElem_map]
    exact hkey
  have := (List.Nodup.getElem_inj_iff hmapnd).mp hi1
  exact hne this

theorem initOrder_length {records : List Record} (hnd : (keysOf records).Nodup) :
    (initOrder records).length = records.length := by
  rw [initOrder_eq hnd]
  simp [List.enum_length]

theorem initOrder_getElem {records : List Record} (hnd : (keysOf records).Nodup)
    {i : Nat} (hi : i < records.length) (hi2 : i < (initOrder records).length) :
    (initOrder records)[i] = ((records[i]).key, 2 * (i : ℤ)) := by
  have hi3 : i < (records.enum.map (fun ic => (ic.2.key, 2 * (ic.1 : ℤ)))).length := by
    rw [← initOrder_eq hnd]
    exact hi2
  have h1 : (initOrder records)[i] =
      (records.enum.map (fun ic => (ic.2.key, 2 * (ic.1 : ℤ))))[i] := by
    congr 1
    exact initOrder_eq hnd
  rw [h1, List.getElem_map, List.getElem_enum]

theorem initOrder_sorted {records : List Record} (hnd : (keysOf records).Nodup) :
    List.Sorted (fun a b : String × ℤ => a.2 ≤ b.2) (initOrder records) := by
  rw [List.Sorted]
  rw [List.pairwise_iff_getElem]
  intro i j hi hj hij
  have hlen := initOrder_length hnd
  rw [initOrder_getElem hnd (by omega) hi, initOrder_getElem hnd (by omega) hj]
  simp only
  omega

/-- Structure of any successful `move_referring_concepts_down` run on a
collection with unique keys and no cycles: the output is a permutation of
the input, has distinct keys, and places every referent strictly before
every one of its referrers. -/
theorem mrcd_out_facts (records : List Record) (fuel : Nat) (out : List Record)
    (hnd : (keysOf records).Nodup) (hnc : ¬ HasCycle records)
    (hrun : moveReferringConceptsDown records fuel = some (.ok out)) :
    records.Perm out ∧ (keysOf out).Nodup ∧
    (∀ R ∈ records, ∀ K ∈ referants R,
      out.findIdx (fun x => x.key = K) < out.findIdx (fun x => x.key = R.key)) := by
  unfold moveReferringConceptsDown at hrun
  cases hloop : mrcdLoop records fuel (initOrder records) with
  | none => rw [hloop] at hrun; cases hrun
  | some res =>
    rw [hloop] at hrun
    cases res with
    | error e => cases hrun
    | ok d2 =>
      simp only at hrun
      cases hmap : mapO (fun p => byName records (Prod.fst p))
          (d2.insertionSort (fun a b => a.2 ≤ b.2)) with
      | none => rw [hmap] at hrun; cases hrun
      | some out =>
        rw [hmap] at hrun
        cases hrun
        have hkeys2 : d2.map Prod.fst = keysOf records :=
          (mrcdLoop_keys records fuel _ _ hloop).trans (initOrder_map_fst hnd)
        have hfix := mrcdLoop_post records fuel _ _ hloop
        have hpairs_perm :
            (d2.insertionSort (fun a b => a.2 ≤ b.2)).Perm d2 :=
          List.perm_insertionSort _ _
        have hpairs_fst_nd :
            ((d2.insertionSort (fun a b => a.2 ≤ b.2)).map Prod.fst).Nodup := by
          rw [List.Perm.nodup_iff (hpairs_perm.map Prod.fst)]
          rw [hkeys2]
          exact hnd
        have hsorted : List.Sorted (fun a b : String × ℤ => a.2 ≤ b.2)
            (d2.insertionSort (fun a b => a.2 ≤ b.2)) :=
          List.sorted_insertionSort _ _
        have hlen : out.length =
            (d2.insertionSort (fun a b => a.2 ≤ b.2)).length := mapO_length hmap
        have hout_keys : keysOf out =
            (d2.insertionSort (fun a b => a.2 ≤ b.2)).map Prod.fst := by
          apply List.ext_getElem (by simpa [keysOf] using hlen)
          intro i h1 h2
          have hi : i < out.length := by simpa [keysOf] using h1
          have hp : i < (d2.insertionSort (fun a b => a.2 ≤ b.2)).length := by
            simpa using h2
          have hpt := mapO_getElem hmap i hp hi
          simp only [keysOf, List.getElem_map]
          exact (byName_some_mem hpt).2
        have hrecnd : records.Nodup := List.Nodup.of_map Record.key hnd
        have houtnd_keys : (keysOf out).Nodup := by
          rw [hout_keys]
          exact hpairs_fst_nd
        have houtnd : out.Nodup := List.Nodup.of_map Record.key houtnd_keys
        have hmem : ∀ c, c ∈ records ↔ c ∈ out := by
          intro c
          constructor
          · intro hc
            have hck : c.key ∈ d2.map Prod.fst := by
              rw [hkeys2]
              exact List.mem_map_of_mem Record.key hc
            have hck2 : c.key ∈
                (d2.insertionSort (fun a b => a.2 ≤ b.2)).map Prod.fst :=
              ((hpairs_perm.map Prod.fst).mem_iff).mpr hck
            obtain ⟨p, hpmem, hpk⟩ := List.mem_map.mp hck2
            obtain ⟨b, hbmem, hbeq⟩ := mapO_forall_mem hmap hpmem
            rw [hpk] at hbeq
            rw [byName_nodup hnd hc] at hbeq
            cases hbeq
            exact hbmem
          · intro hc
            obtain ⟨p, hpmem, hpeq⟩ := mapO_mem hmap hc
            exact (byName_some_mem hpeq).1
        refine ⟨(List.perm_ext_iff_of_nodup hrecnd houtnd).mpr hmem,
          houtnd_keys, ?_⟩
        intro R hR K hK
        obtain ⟨vr, vc, hvr, hvc, hlt⟩ := fixpoint_ranks records hfix R hR K hK
        have hKpairs : (K, vr) ∈ d2.insertionSort (fun a b => a.2 ≤ b.2) :=
          (hpairs_perm.mem_iff).mpr (dictGet_some_mem hvr)
        have hRpairs : (R.key, vc) ∈ d2.insertionSort (fun a b => a.2 ≤ b.2) :=
          (hpairs_perm.mem_iff).mpr (dictGet_some_mem hvc)
        have hfind : ∀ Kk : String, out.findIdx (fun x => x.key = Kk) =
            (d2.insertionSort (fun a b => a.2 ≤ b.2)).findIdx
              (fun p => p.1 = Kk) := by
          intro Kk
          have h1 := findIdx_map_eq Record.key (fun k => decide (k = Kk)) out
          have h2 := findIdx_map_eq Prod.fst (fun k => decide (k = Kk))
            (d2.insertionSort (fun a b => a.2 ≤ b.2))
          have h3 : out.map Record.key =
              (d2.insertionSort (fun a b => a.2 ≤ b.2)).map Prod.fst := hout_keys
          rw [← h1, ← h2, h3]
        have hexK : ∃ p ∈ d2.insertionSort (fun a b => a.2 ≤ b.2),
            (fun p : String × ℤ => decide (p.1 = K)) p := ⟨(K, vr), hKpairs, by simp⟩
        have hexR : ∃ p ∈ d2.insertionSort (fun a b => a.2 ≤ b.2),
            (fun p : String × ℤ => decide (p.1 = R.key)) p :=
          ⟨(R.key, vc), hRpairs, by simp⟩
        have hiK := List.findIdx_lt_length_of_exists hexK
        have hiR := List.findIdx_lt_length_of_exists hexR
        have hkeyK : ((d2.insertionSort (fun a b => a.2 ≤ b.2))[
            (d2.insertionSort (fun a b => a.2 ≤ b.2)).findIdx
              (fun p => p.1 = K)]).1 = K := by
          have := @List.findIdx_getElem _ _ _ hiK
          simpa using this
        have hkeyR : ((d2.insertionSort (fun a b => a.2 ≤ b.2))[
            (d2.insertionSort (fun a b => a.2 ≤ b.2)).findIdx
              (fun p => p.1 = R.key)]).1 = R.key := by
          have := @List.findIdx_getElem _ _ _ hiR
          simpa using this
        have hvalK : (d2.insertionSort (fun a b => a.2 ≤ b.2))[
            (d2.insertionSort (fun a b => a.2 ≤ b.2)).findIdx
              (fun p => p.1 = K)] = (K, vr) :=
          entries_eq_of_fst_nodup hpairs_fst_nd (List.getElem_mem hiK) hKpairs
            (by simp [hkeyK])
        have hvalR : (d2.insertionSort (fun a b => a.2 ≤ b.2))[
            (d2.insertionSort (fun a b => a.2 ≤ b.2)).findIdx
              (fun p => p.1 = R.key)] = (R.key, vc) :=
          entries_eq_of_fst_nodup hpairs_fst_nd (List.getElem_mem hiR) hRpairs
            (by simp [hkeyR])
        have hKR : K ≠ R.key := by
          intro he
          apply hnc
          refine ⟨R.key, [], ?_⟩
          have hedge : edge records R.key K :=
            edge_intro (byName_nodup hnd hR) hK
          rw [he] at hedge
          exact List.Chain.cons hedge List.Chain.nil
        rw [hfind K, hfind R.key]
        rcases Nat.lt_trichotomy
          ((d2.insertionSort (fun a b => a.2 ≤ b.2)).findIdx (fun p => p.1 = K))
          ((d2.insertionSort (fun a b => a.2 ≤ b.2)).findIdx
            (fun p => p.1 = R.key)) with hcase | hcase | hcase
        · exact hcase
        · exfalso
          have hvalK2 := hvalK
          simp only [hcase] at hvalK2
          have hpair : ((K : String), vr) = ((R.key : String), vc) := by
            rw [← hvalK2, hvalR]
          exact hKR (congrArg Prod.fst hpair)
        · exfalso
          have hrel := List.pairwise_iff_getElem.mp hsorted _ _ hiR hiK hcase
          rw [hvalR, hvalK] at hrel
          simp only at hrel
          omega

/-- For an acyclic, uniquely-keyed, fully-resolving collection the whole
orderer terminates with a result. -/
theorem mrcd_terminates_succeeds (records : List Record)
    (hnd : (keysOf records).Nodup) (hres : Resolves records)
    (hnc : ¬ HasCycle records) :
    ∃ fuel out, moveReferringConceptsDown records fuel = some (.ok out) := by
  obtain ⟨fuel, d2, hloop, hinv2, hfix⟩ :=
    mrcdLoop_term records hnd hres hnc _ (initOrder records)
      (dinv_initOrder hnd) le_rfl
  have hmapOK : ∀ p ∈ d2.insertionSort (fun a b => a.2 ≤ b.2),
      ∃ b, byName records (Prod.fst p) = some b := by
    intro p hp
    have hpd2 : p ∈ d2 := (List.perm_insertionSort _ _).mem_iff.mp hp
    have hpk : p.1 ∈ keysOf records := by
      rw [← ((mrcdLoop_keys records fuel _ _ hloop).trans (initOrder_map_fst hnd))]
      exact List.mem_map_of_mem Prod.fst hpd2
    exact byName_mem_keys hpk
  obtain ⟨out, hout⟩ := mapO_some_of hmapOK
  refine ⟨fuel, out, ?_⟩
  unfold moveReferringConceptsDown
  rw [hloop]
  simp only [hout]

/-- C1: for every acyclic record collection with unique keys in which every
referent key resolves, `move_referring_concepts_down` returns a permutation
of the input records in which, for every record R and every referent key K
of R, the record keyed K is positioned strictly before R. -/
theorem mrcd_orders (records : List Record) (hnd : (keysOf records).Nodup)
    (hres : Resolves records) (hnc : ¬ HasCycle records) :
    ∃ fuel out, moveReferringConceptsDown records fuel = some (.ok out) ∧
      records.Perm out ∧
      ∀ R ∈ records, ∀ K ∈ referants R,
        out.findIdx (fun x => x.key = K) < out.findIdx (fun x => x.key = R.key) := by
  obtain ⟨fuel, out, hrun⟩ := mrcd_terminates_succeeds records hnd hres hnc
  obtain ⟨hperm, -, hord⟩ := mrcd_out_facts records fuel out hnd hnc hrun
  exact ⟨fuel, out, hrun, hperm, hord⟩

/-- Witness for C1 on the repository test chain. -/
theorem mrcd_orders_witness :
    (keysOf scenarioChain).Nodup ∧ Resolves scenarioChain ∧
    (¬ HasCycle scenarioChain) ∧
    (∃ fuel out, moveReferringConceptsDown scenarioChain fuel = some (.ok out) ∧
      scenarioChain.Perm out ∧
      ∀ R ∈ scenarioChain, ∀ K ∈ referants R,
        out.findIdx (fun x => x.key = K) <
          out.findIdx (fun x => x.key = R.key)) :=
  ⟨by decide, resolves_of_check _ (by decide),
    noCycle_of_heights scenarioChain
      (fun k => if k = "a" then 2 else if k = "b" then 1 else
        if k = "c" then 1 else 0) (by decide),
    mrcd_orders scenarioChain (by decide) (resolves_of_check _ (by decide))
      (noCycle_of_heights scenarioChain
        (fun k => if k = "a" then 2 else if k = "b" then 1 else
          if k = "c" then 1 else 0) (by decide))⟩

/-- C4 (amended): a `+0.5` bump CAN produce a rank equal to the integer
rank of a never-bumped record, so final ranks need not be pairwise
distinct (see the counterexample); what does hold at the fixed point is
that every record's rank strictly exceeds each of its referents' ranks, so
the stable sort still places referents strictly before their referrers and
ties only arise between records with no dependency relation. -/
theorem mrcd_referent_ranks_strict (records : List Record)
    (hnd : (keysOf records).Nodup) (hres : Resolves records)
    (hnc : ¬ HasCycle records) :
    ∃ fuel d2, mrcdLoop records fuel (initOrder records) = some (.ok d2) ∧
      ∀ c ∈ records, ∀ r ∈ referants c, ∃ vr vc,
        dictGet d2 r = some vr ∧ dictGet d2 c.key = some vc ∧ vr < vc := by
  obtain ⟨fuel, d2, hloop, hinv2, hfix⟩ :=
    mrcdLoop_term records hnd hres hnc _ (initOrder records)
      (dinv_initOrder hnd) le_rfl
  exact ⟨fuel, d2, hloop, fixpoint_ranks records hfix⟩

/-- Witness for the amended C4 on the counterexample collection itself. -/
theorem mrcd_referent_ranks_strict_witness :
    (keysOf scenarioC4).Nodup ∧ Resolves scenarioC4 ∧ (¬ HasCycle scenarioC4) ∧
    (∃ fuel d2, mrcdLoop scenarioC4 fuel (initOrder scenarioC4) =
        some (.ok d2) ∧
      ∀ c ∈ scenarioC4, ∀ r ∈ referants c, ∃ vr vc,
        dictGet d2 r = some vr ∧ dictGet d2 c.key = some vc ∧ vr < vc) :=
  ⟨by decide, resolves_of_check _ (by decide),
    noCycle_of_heights scenarioC4
      (fun k => if k = "p" then 2 else if k = "q" then 1 else 0) (by decide),
    mrcd_referent_ranks_strict scenarioC4 (by decide)
      (resolves_of_check _ (by decide))
      (noCycle_of_heights scenarioC4
        (fun k => if k = "p" then 2 else if k = "q" then 1 else 0) (by decide))⟩

/-- If every record with referents already ranks strictly above all of
them, a pass changes nothing. -/
theorem onePassAux_nochange :
    ∀ (rs : List Record) (d : List (String × ℤ)) (ch : Bool),
      (∀ c ∈ rs, referants c ≠ [] →
        ∃ vals cur, mapO (dictGet d) (referants c) = some vals ∧
          dictGet d c.key = some cur ∧ ∀ v ∈ vals, v < cur) →
      onePassAux rs d ch = .ok (d, ch) := by
  intro rs
  induction rs with
  | nil => intro d ch _; rfl
  | cons c cs ih =>
    intro d ch hg
    cases hr : referants c with
    | nil =>
      simp only [onePassAux, hr]
      exact ih d ch (fun x hx => hg x (List.mem_cons_of_mem _ hx))
    | cons r0 rs2 =>
      obtain ⟨vals, cur, hm, hcu, hlt⟩ := hg c (by simp) (by rw [hr]; simp)
      rw [hr] at hm
      cases vals with
      | nil =>
        exfalso
        have := mapO_length hm
        simp at this
      | cons v0 vs =>
        have hmax : maxI v0 vs < cur := hlt _ (maxI_mem vs v0)
        have hnle : ¬(cur ≤ maxI v0 vs) := not_le.mpr hmax
        simp only [onePassAux, hr, hm, hcu, if_neg hnle]
        exact ih d ch (fun x hx => hg x (by simp [hx]))

/-- The initial order dict maps the j-th key to rank j (stored 2j). -/
theorem initOrder_dictGet {out : List Record} (hnd : (keysOf out).Nodup)
    {j : Nat} (hj : j < out.length) :
    dictGet (initOrder out) ((out[j]).key) = some (2 * (j : ℤ)) := by
  have hfstnd : ((initOrder out).map Prod.fst).Nodup := by
    rw [initOrder_map_fst hnd]
    exact hnd
  apply dictGet_of_mem_nodup hfstnd
  have hlen := initOrder_length hnd
  have hj2 : j < (initOrder out).length := by omega
  have hmem : (initOrder out)[j] ∈ initOrder out := List.getElem_mem hj2
  rw [initOrder_getElem hnd hj hj2] at hmem
  exact hmem

/-- C7: `move_referring_concepts_down` is idempotent: on an acyclic
collection with unique, resolvable keys, its output is already a fixed
point, so running it again (any fuel covering at least the single verifying
pass) returns the output unchanged with zero rank bumps. -/
theorem mrcd_idempotent (records : List Record) (fuel : Nat) (out : List Record)
    (hnd : (keysOf records).Nodup) (hres : Resolves records)
    (hnc : ¬ HasCycle records)
    (hrun : moveReferringConceptsDown records fuel = some (.ok out)) :
    ∀ fuel2, 1 ≤ fuel2 → moveReferringConceptsDown out fuel2 = some (.ok out) := by
  obtain ⟨hperm, houtnd, hord⟩ := mrcd_out_facts records fuel out hnd hnc hrun
  have hguard : ∀ c ∈ out, referants c ≠ [] →
      ∃ vals cur, mapO (dictGet (initOrder out)) (referants c) = some vals ∧
        dictGet (initOrder out) c.key = some cur ∧ ∀ v ∈ vals, v < cur := by
    intro c hc _
    obtain ⟨j, hj, hcj⟩ := List.getElem_of_mem hc
    have hcur : dictGet (initOrder out) c.key = some (2 * (j : ℤ)) := by
      rw [← hcj]
      exact initOrder_dictGet houtnd hj
    have hjfind : out.findIdx (fun x => x.key = c.key) = j := by
      conv_lhs => rw [← hcj]
      exact findIdx_key_self houtnd hj
    have hrlook : ∀ r ∈ referants c,
        ∃ v, dictGet (initOrder out) r = some v ∧ v < 2 * (j : ℤ) := by
      intro r hrr
      have hcr : c ∈ records := hperm.mem_iff.mpr hc
      have hltj := hord c hcr r hrr
      rw [hjfind] at hltj
      have hrky : r ∈ keysOf out := by
        obtain ⟨w, hw⟩ := hres c hcr r hrr
        obtain ⟨hwm, hwk⟩ := byName_some_mem hw
        have hin : r ∈ keysOf records := hwk ▸ List.mem_map_of_mem Record.key hwm
        exact ((hperm.map Record.key).mem_iff).mp hin
      obtain ⟨w2, hw2m, hw2k⟩ := List.mem_map.mp hrky
      have hex : ∃ x ∈ out, (fun x : Record => decide (x.key = r)) x :=
        ⟨w2, hw2m, by simp [hw2k]⟩
      have hirlt := List.findIdx_lt_length_of_exists hex
      have hkey : (out[out.findIdx (fun x => x.key = r)]).key = r := by
        have := @List.findIdx_getElem _ _ _ hirlt
        simpa using this
      have hval := initOrder_dictGet houtnd hirlt
      rw [hkey] at hval
      refine ⟨2 * ((out.findIdx (fun x => x.key = r)) : ℤ), hval, ?_⟩
      have : out.findIdx (fun x => x.key = r) < j := hltj
      omega
    obtain ⟨vals, hm⟩ := mapO_some_of
      (fun r hrr => ⟨(hrlook r hrr).choose, (hrlook r hrr).choose_spec.1⟩)
    refine ⟨vals, 2 * (j : ℤ), hm, hcur, ?_⟩
    intro v hv
    obtain ⟨r, hrr, hrv⟩ := mapO_mem hm hv
    obtain ⟨v2, hv2, hv2lt⟩ := hrlook r hrr
    have : v2 = v := Option.some.inj (hv2.symm.trans hrv)
    omega
  have hpass : onePass out (initOrder out) = .ok (initOrder out, false) :=
    onePassAux_nochange out (initOrder out) false hguard
  intro fuel2 hf2
  cases fuel2 with
  | zero => omega
  | succ f =>
    have hloop : mrcdLoop out (f + 1) (initOrder out) =
        some (.ok (initOrder out)) := by
      show (match onePass out (initOrder out) with
        | .error e => some (.error e)
        | .ok (d3, false) => some (.ok d3)
        | .ok (d3, true) => mrcdLoop out f d3) = some (.ok (initOrder out))
      rw [hpass]
    have hsort : (initOrder out).insertionSort (fun a b => a.2 ≤ b.2) =
        initOrder out :=
      List.Sorted.insertionSort_eq (initOrder_sorted houtnd)
    have hfinal : mapO (fun p => byName out (Prod.fst p)) (initOrder out) =
        some out := by
      apply mapO_eq_some
      · exact (initOrder_length houtnd).symm ▸ rfl
      · intro i hi hm2
        have hi2 : i < out.length := by
          rw [← initOrder_length houtnd]
          exact hi
        rw [initOrder_getElem houtnd hi2 hi]
        exact byName_nodup houtnd (List.getElem_mem hi2)
    unfold moveReferringConceptsDown
    rw [hloop]
    simp only [hsort, hfinal]

/-- Witness for C7: on the repository test chain, a rerun on the output
returns it unchanged. -/
theorem mrcd_idempotent_witness :
    moveReferringConceptsDown scenarioChain 5 =
      some (.ok [mkRec "d" "" "", mkRec "e" "" "", mkRec "b" "d;e" "",
        mkRec "c" "" "d;e", mkRec "a" "b;c" ""]) ∧
    (∀ fuel2, 1 ≤ fuel2 →
      moveReferringConceptsDown [mkRec "d" "" "", mkRec "e" "" "",
        mkRec "b" "d;e" "", mkRec "c" "" "d;e", mkRec "a" "b;c" ""] fuel2 =
      some (.ok [mkRec "d" "" "", mkRec "e" "" "", mkRec "b" "d;e" "",
        mkRec "c" "" "d;e", mkRec "a" "b;c" ""])) :=
  ⟨by decide,
    mrcd_idempotent scenarioChain 5 _ (by decide)
      (resolves_of_check _ (by decide))
      (noCycle_of_heights scenarioChain
        (fun k => if k = "a" then 2 else if k = "b" then 1 else
          if k = "c" then 1 else 0) (by decide))
      (by decide)⟩

/-! ### Cycle detection: structural lemmas about `get_cycle` -/

theorem erase_append_self {B : List String} {k : String} (h : k ∉ B) :
    (B ++ [k]).erase k = B := by
  rw [List.erase_append_right _ h]
  simp [List.erase_cons_head]

/-- A truthy `get_cycle` return value is never the empty list. -/
theorem goRefs_cycle_nonempty (records : List Record)
    (gc : Record → List String → List String → Option (Except String CycRes))
    (hgc : ∀ u V B V2 B2 l, gc u V B = some (.ok (V2, B2, some l)) → l ≠ []) :
    ∀ (names V B : List String) (V2 B2 : List String) (l : List String),
      goRefs records gc names V B = some (.ok (V2, B2, some l)) → l ≠ [] := by
  intro names
  induction names with
  | nil => intro V B V2 B2 l h; cases h
  | cons n ns ih =>
    intro V B V2 B2 l h
    simp only [goRefs] at h
    split at h
    · cases h
    · split at h
      · cases h
      · cases h
      · split at h
        · cases h
          simp
        · exact ih _ _ _ _ _ h

theorem getCycleF_cycle_nonempty (records : List Record) :
    ∀ (fuel : Nat) (c : Record) (V B V2 B2 : List String) (l : List String),
      getCycleF records fuel c V B = some (.ok (V2, B2, some l)) → l ≠ [] := by
  intro fuel
  induction fuel with
  | zero => intro c V B V2 B2 l h; cases h
  | succ fuel ih =>
    intro c V B V2 B2 l h
    simp only [getCycleF] at h
    by_cases hB : c.key ∈ B
    · rw [if_pos hB] at h
      cases h
      intro hnil
      rw [hnil] at hB
      cases hB
    · rw [if_neg hB] at h
      by_cases hV : c.key ∈ V
      · rw [if_pos hV] at h
        cases h
      · rw [if_neg hV] at h
        cases hg : goRefs records (getCycleF records fuel) (referants c)
            (V ++ [c.key]) (B ++ [c.key]) with
        | none => rw [hg] at h; cases h
        | some res =>
          rw [hg] at h
          cases res with
          | error e => cases h
          | ok triple =>
            obtain ⟨Vg, Bg, rg⟩ := triple
            cases rg with
            | none => simp only at h; cases h
            | some lg =>
              simp only at h
              cases h
              exact goRefs_cycle_nonempty records _
                (fun u V B V2 B2 l2 hh => ih u V B V2 B2 l2 hh) _ _ _ _ _ _ hg

/-- The visited set only ever grows by appending. -/
theorem goRefs_mono (records : List Record)
    (gc : Record → List String → List String → Option (Except String CycRes))
    (hgc : ∀ u V B V2 B2 r, gc u V B = some (.ok (V2, B2, r)) → ∃ t, V2 = V ++ t) :
    ∀ (names V B V2 B2 : List String) (r : Option (List String)),
      goRefs records gc names V B = some (.ok (V2, B2, r)) → ∃ t, V2 = V ++ t := by
  intro names
  induction names with
  | nil =>
    intro V B V2 B2 r h
    cases h
    exact ⟨[], by simp⟩
  | cons n ns ih =>
    intro V B V2 B2 r h
    simp only [goRefs] at h
    split at h
    · cases h
    · split at h
      · cases h
      · cases h
      · rename_i xo u hb xi Vc Bc rc hgcres
        obtain ⟨t1, ht1⟩ := hgc u V B Vc Bc rc hgcres
        split at h
        · cases h
          exact ⟨t1, ht1⟩
        · obtain ⟨t2, ht2⟩ := ih _ _ _ _ _ h
          exact ⟨t1 ++ t2, by rw [ht2, ht1, List.append_assoc]⟩

theorem getCycleF_mono (records : List Record) :
    ∀ (fuel : Nat) (c : Record) (V B V2 B2 : List String) (r : Option (List String)),
      getCycleF records fuel c V B = some (.ok (V2, B2, r)) → ∃ t, V2 = V ++ t := by
  intro fuel
  induction fuel with
  | zero => intro c V B V2 B2 r h; cases h
  | succ fuel ih =>
    intro c V B V2 B2 r h
    simp only [getCycleF] at h
    by_cases hB : c.key ∈ B
    · rw [if_pos hB] at h
      cases h
      exact ⟨[], by simp⟩
    · rw [if_neg hB] at h
      by_cases hV : c.key ∈ V
      · rw [if_pos hV] at h
        cases h
        exact ⟨[], by simp⟩
      · rw [if_neg hV] at h
        cases hg : goRefs records (getCycleF records fuel) (referants c)
            (V ++ [c.key]) (B ++ [c.key]) with
        | none => rw [hg] at h; cases h
        | some res =>
          rw [hg] at h
          cases res with
          | error e => cases h
          | ok triple =>
            obtain ⟨Vg, Bg, rg⟩ := triple
            obtain ⟨t1, ht1⟩ := goRefs_mono records _
              (fun u Vx Bx V2x B2x rx hh => ih u Vx Bx V2x B2x rx hh)
              _ _ _ _ _ _ hg
            cases rg with
            | none =>
              simp only at h
              cases h
              exact ⟨[c.key] ++ t1, by rw [ht1, List.append_assoc]⟩
            | some lg =>
              simp only at h
              cases h
              exact ⟨[c.key] ++ t1, by rw [ht1, List.append_assoc]⟩

theorem byName_some_key {records : List Record} {n : String} {u : Record}
    (h : byName records n = some u) : byName records u.key = some u := by
  rw [(byName_some_mem h).2]
  exact h

/-- A successful `get_cycle` call leaves its concept's key either on the
entry branch or in the visited set it returns. -/
theorem getCycleF_key_mem (records : List Record) :
    ∀ (fuel : Nat) (c : Record) (V B V2 B2 : List String) (r : Option (List String)),
      getCycleF records fuel c V B = some (.ok (V2, B2, r)) →
      c.key ∈ B ∨ c.key ∈ V2 := by
  intro fuel
  cases fuel with
  | zero => intro c V B V2 B2 r h; cases h
  | succ fuel =>
    intro c V B V2 B2 r h
    simp only [getCycleF] at h
    by_cases hB : c.key ∈ B
    · exact Or.inl hB
    · rw [if_neg hB] at h
      by_cases hV : c.key ∈ V
      · rw [if_pos hV] at h
        cases h
        exact Or.inr hV
      · rw [if_neg hV] at h
        cases hg : goRefs records (getCycleF records fuel) (referants c)
            (V ++ [c.key]) (B ++ [c.key]) with
        | none => rw [hg] at h; cases h
        | some res =>
          rw [hg] at h
          cases res with
          | error e => cases h
          | ok triple =>
            obtain ⟨Vg, Bg, rg⟩ := triple
            obtain ⟨t, ht⟩ := goRefs_mono records _
              (fun u Vx Bx V2x B2x rx hh =>
                getCycleF_mono records fuel u Vx Bx V2x B2x rx hh)
              _ _ _ _ _ _ hg
            have hckVg : c.key ∈ Vg := by
              rw [ht]
              exact List.mem_append_left _ (List.mem_append_right _ (by simp))
            cases rg with
            | none => simp only at h; cases h; exact Or.inr hckVg
            | some lg => simp only at h; cases h; exact Or.inr hckVg

/-- Fuel sufficiency for the referent loop: with enough fuel for the
unvisited keys, the recursive calls never run out. -/
theorem goRefs_fuel (records : List Record) (fuel : Nat)
    (hgc : ∀ (u : Record) (V B : List String), u ∈ records →
      ((keysOf records).toFinset \ V.toFinset).card < fuel →
      getCycleF records fuel u V B ≠ none) :
    ∀ (names V B : List String),
      ((keysOf records).toFinset \ V.toFinset).card < fuel →
      goRefs records (getCycleF records fuel) names V B ≠ none := by
  intro names
  induction names with
  | nil =>
    intro V B _ h
    simp only [goRefs] at h
    cases h
  | cons n ns ih =>
    intro V B hcard h
    simp only [goRefs] at h
    cases hb : byName records n with
    | none => rw [hb] at h; cases h
    | some u =>
      rw [hb] at h
      simp only at h
      have hu : u ∈ records := (byName_some_mem hb).1
      cases hg : getCycleF records fuel u V B with
      | none => exact hgc u V B hu hcard hg
      | some res =>
        rw [hg] at h
        cases res with
        | error e => cases h
        | ok triple =>
          obtain ⟨V2, B2, r⟩ := triple
          simp only at h
          obtain ⟨t, ht⟩ := getCycleF_mono records fuel u V B V2 B2 r hg
          have hcard2 : ((keysOf records).toFinset \ V2.toFinset).card < fuel := by
            refine lt_of_le_of_lt (Finset.card_le_card ?_) hcard
            intro x hx
            rw [Finset.mem_sdiff] at hx ⊢
            refine ⟨hx.1, fun hm => hx.2 ?_⟩
            rw [List.mem_toFinset] at hm ⊢
            rw [ht]
            exact List.mem_append_left _ hm
          by_cases htr : pyTruthy r = true
          · rw [if_pos htr] at h; cases h
          · rw [if_neg htr] at h
            exact ih V2 B2 hcard2 h

/-- Fuel sufficiency for `get_cycle`: one unit of fuel per unvisited key. -/
theorem getCycleF_fuel (records : List Record) :
    ∀ (fuel : Nat) (c : Record) (V B : List String), c ∈ records →
      ((keysOf records).toFinset \ V.toFinset).card < fuel →
      getCycleF records fuel c V B ≠ none := by
  intro fuel
  induction fuel with
  | zero => intro c V B _ hcard; exact absurd hcard (Nat.not_lt_zero _)
  | succ fuel ih =>
    intro c V B hc hcard h
    simp only [getCycleF] at h
    by_cases hB : c.key ∈ B
    · rw [if_pos hB] at h; cases h
    · rw [if_neg hB] at h
      by_cases hV : c.key ∈ V
      · rw [if_pos hV] at h; cases h
      · rw [if_neg hV] at h
        have hckey : c.key ∈ (keysOf records).toFinset := by
          rw [List.mem_toFinset]
          exact List.mem_map_of_mem Record.key hc
        have hmem : c.key ∈ (keysOf records).toFinset \ V.toFinset :=
          Finset.mem_sdiff.mpr ⟨hckey, by simpa using hV⟩
        have hV' : ((keysOf records).toFinset \ (V ++ [c.key]).toFinset).card
            < fuel := by
          have heq : (keysOf records).toFinset \ (V ++ [c.key]).toFinset =
              ((keysOf records).toFinset \ V.toFinset).erase c.key := by
            ext x
            simp only [Finset.mem_sdiff, Finset.mem_erase, List.mem_toFinset,
              List.mem_append, List.mem_singleton]
            tauto
          rw [heq]
          have := Finset.card_erase_of_mem hmem
          have hpos := Finset.card_pos.mpr ⟨c.key, hmem⟩
          omega
        cases hg : goRefs records (getCycleF records fuel) (referants c)
            (V ++ [c.key]) (B ++ [c.key]) with
        | none => exact goRefs_fuel records fuel ih _ _ _ hV' hg
        | some res =>
          rw [hg] at h
          cases res with
          | error e => cases h
          | ok triple =>
            obtain ⟨V2, B2, r⟩ := triple
            cases r with
            | none => simp only at h; cases h
            | some l => simp only at h; cases h

/-- Fuel sufficiency for the root loop of `detect_cycles`. -/
theorem detectRoots_total (records : List Record) (fuel : Nat) :
    ∀ (cs : List Record) (V B acc : List String), (∀ c ∈ cs, c ∈ records) →
      ((keysOf records).toFinset \ V.toFinset).card < fuel →
      detectRoots records fuel cs V B acc ≠ none := by
  intro cs
  induction cs with
  | nil =>
    intro V B acc _ _ h
    simp only [detectRoots] at h
    cases h
  | cons c cs ih =>
    intro V B acc hcs hcard h
    simp only [detectRoots] at h
    cases hg : getCycleF records fuel c V B with
    | none => exact getCycleF_fuel records fuel c V B (hcs c (by simp)) hcard hg
    | some res =>
      rw [hg] at h
      cases res with
      | error e => cases h
      | ok triple =>
        obtain ⟨V2, B2, r⟩ := triple
        simp only at h
        obtain ⟨t, ht⟩ := getCycleF_mono records fuel c V B V2 B2 r hg
        have hcard2 : ((keysOf records).toFinset \ V2.toFinset).card < fuel := by
          refine lt_of_le_of_lt (Finset.card_le_card ?_) hcard
          intro x hx
          rw [Finset.mem_sdiff] at hx ⊢
          refine ⟨hx.1, fun hm => hx.2 ?_⟩
          rw [List.mem_toFinset] at hm ⊢
          rw [ht]
          exact List.mem_append_left _ hm
        by_cases htr : pyTruthy r = true
        · rw [if_pos htr] at h
          exact ih _ _ _ (fun x hx => hcs x (by simp [hx])) hcard2 h
        · rw [if_neg htr] at h
          exact ih _ _ _ (fun x hx => hcs x (by simp [hx])) hcard2 h

/-- With every referent name resolvable, the referent loop never raises a
`KeyError`. -/
theorem goRefs_noerr (records : List Record)
    (gc : Record → List String → List String → Option (Except String CycRes))
    (hgc : ∀ (u : Record) (V B : List String) (e : String),
      u ∈ records → gc u V B ≠ some (.error e)) :
    ∀ (names V B : List String) (e : String),
      (∀ n ∈ names, n ∈ keysOf records) →
      goRefs records gc names V B ≠ some (.error e) := by
  intro names
  induction names with
  | nil =>
    intro V B e _ h
    simp only [goRefs] at h
    cases h
  | cons n ns ih =>
    intro V B e hres h
    simp only [goRefs] at h
    cases hb : byName records n with
    | none =>
      exact absurd (hres n (by simp)) (byName_none_iff.mp hb)
    | some u =>
      rw [hb] at h
      simp only at h
      have hu : u ∈ records := (byName_some_mem hb).1
      cases hg : gc u V B with
      | none => rw [hg] at h; cases h
      | some res =>
        rw [hg] at h
        cases res with
        | error e2 =>
          simp only at h
          cases h
          exact hgc u V B e hu hg
        | ok triple =>
          obtain ⟨V2, B2, r⟩ := triple
          simp only at h
          by_cases htr : pyTruthy r = true
          · rw [if_pos htr] at h; cases h
          · rw [if_neg htr] at h
            exact ih V2 B2 e (fun x hx => hres x (by simp [hx])) h

/-- With a resolving collection, `get_cycle` never raises a `KeyError`. -/
theorem getCycleF_noerr (records : List Record) (hres : Resolves records) :
    ∀ (fuel : Nat) (c : Record) (V B : List String) (e : String), c ∈ records →
      getCycleF records fuel c V B ≠ some (.error e) := by
  intro fuel
  induction fuel with
  | zero => intro c V B e _ h; cases h
  | succ fuel ih =>
    intro c V B e hc h
    simp only [getCycleF] at h
    by_cases hB : c.key ∈ B
    · rw [if_pos hB] at h; cases h
    · rw [if_neg hB] at h
      by_cases hV : c.key ∈ V
      · rw [if_pos hV] at h; cases h
      · rw [if_neg hV] at h
        have hrefs : ∀ n ∈ referants c, n ∈ keysOf records := by
          intro n hn
          obtain ⟨w, hw⟩ := hres c hc n hn
          obtain ⟨hm, hk⟩ := byName_some_mem hw
          exact hk ▸ List.mem_map_of_mem Record.key hm
        cases hg : goRefs records (getCycleF records fuel) (referants c)
            (V ++ [c.key]) (B ++ [c.key]) with
        | none => rw [hg] at h; cases h
        | some res =>
          rw [hg] at h
          cases res with
          | error e2 =>
            simp only at h
            cases h
            exact goRefs_noerr records _ (fun u Vx Bx ex hu hh => ih u Vx Bx ex hu hh)
              (referants c) _ _ e hrefs hg
          | ok triple =>
            obtain ⟨V2, B2, r⟩ := triple
            cases r with
            | none => simp only at h; cases h
            | some l => simp only at h; cases h

/-- With a resolving collection, the root loop of `detect_cycles` never
raises a `KeyError`. -/
theorem detectRoots_noerr (records : List Record) (hres : Resolves records)
    (fuel : Nat) :
    ∀ (cs : List Record) (V B acc : List String) (e : String),
      (∀ c ∈ cs, c ∈ records) →
      detectRoots records fuel cs V B acc ≠ some (.error e) := by
  intro cs
  induction cs with
  | nil =>
    intro V B acc e _ h
    simp only [detectRoots] at h
    cases h
  | cons c cs ih =>
    intro V B acc e hcs h
    simp only [detectRoots] at h
    cases hg : getCycleF records fuel c V B with
    | none => rw [hg] at h; cases h
    | some res =>
      rw [hg] at h
      cases res with
      | error e2 =>
        simp only at h
        cases h
        exact getCycleF_noerr records hres fuel c V B e (hcs c (by simp)) hg
      | ok triple =>
        obtain ⟨V2, B2, r⟩ := triple
        simp only at h
        by_cases htr : pyTruthy r = true
        · rw [if_pos htr] at h
          exact ih _ _ _ e (fun x hx => hcs x (by simp [hx])) h
        · rw [if_neg htr] at h
          exact ih _ _ _ e (fun x hx => hcs x (by simp [hx])) h

/-- In an acyclic collection the referent loop never detects a cycle and
hands the branch back unchanged. -/
theorem goRefs_nc (records : List Record)
    (gc : Record → List String → List String → Option (Except String CycRes))
    (hgc : ∀ (u : Record) (V B V2 B2 : List String) (r : Option (List String)),
      byName records u.key = some u →
      List.Chain' (edge records) (B ++ [u.key]) →
      gc u V B = some (.ok (V2, B2, r)) → r = none ∧ B2 = B) :
    ∀ (names V B V2 B2 : List String) (r : Option (List String)),
      (∀ n ∈ names, List.Chain' (edge records) (B ++ [n])) →
      goRefs records gc names V B = some (.ok (V2, B2, r)) → r = none ∧ B2 = B := by
  intro names
  induction names with
  | nil =>
    intro V B V2 B2 r _ h
    simp only [goRefs] at h
    cases h
    exact ⟨rfl, rfl⟩
  | cons n ns ih =>
    intro V B V2 B2 r hch h
    simp only [goRefs] at h
    cases hb : byName records n with
    | none => rw [hb] at h; cases h
    | some u =>
      rw [hb] at h
      simp only at h
      have hukey : u.key = n := (byName_some_mem hb).2
      cases hg : gc u V B with
      | none => rw [hg] at h; cases h
      | some res =>
        rw [hg] at h
        cases res with
        | error e => cases h
        | ok triple =>
          obtain ⟨Vc, Bc, rc⟩ := triple
          simp only at h
          have hbu : byName records u.key = some u := byName_some_key hb
          have hchu : List.Chain' (edge records) (B ++ [u.key]) := by
            rw [hukey]
            exact hch n (by simp)
          obtain ⟨hrc, hBc⟩ := hgc u V B Vc Bc rc hbu hchu hg
          subst hrc
          subst hBc
          rw [if_neg (by simp [pyTruthy])] at h
          exact ih Vc Bc V2 B2 r (fun m hm => hch m (by simp [hm])) h

/-- In an acyclic collection, a `get_cycle` call entered along a real edge
path returns no cycle and restores the branch. -/
theorem getCycleF_nc (records : List Record) (hnc : ¬ HasCycle records) :
    ∀ (fuel : Nat) (c : Record) (V B V2 B2 : List String) (r : Option (List String)),
      byName records c.key = some c →
      List.Chain' (edge records) (B ++ [c.key]) →
      getCycleF records fuel c V B = some (.ok (V2, B2, r)) →
      r = none ∧ B2 = B := by
  intro fuel
  induction fuel with
  | zero => intro c V B V2 B2 r _ _ h; cases h
  | succ fuel ih =>
    intro c V B V2 B2 r hbc hch h
    simp only [getCycleF] at h
    by_cases hB : c.key ∈ B
    · exfalso
      obtain ⟨B1, B1', hsplit⟩ := List.append_of_mem hB
      subst hsplit
      have hch2 : List.Chain' (edge records)
          (B1 ++ (c.key :: (B1' ++ [c.key]))) := by
        have := hch
        rwa [List.append_assoc] at this
      have h3 : List.Chain (edge records) c.key (B1' ++ [c.key]) :=
        (List.chain'_append.mp hch2).2.1
      exact hnc ⟨c.key, B1', h3⟩
    · rw [if_neg hB] at h
      by_cases hV : c.key ∈ V
      · rw [if_pos hV] at h
        cases h
        exact ⟨rfl, rfl⟩
      · rw [if_neg hV] at h
        cases hg : goRefs records (getCycleF records fuel) (referants c)
            (V ++ [c.key]) (B ++ [c.key]) with
        | none => rw [hg] at h; cases h
        | some res =>
          rw [hg] at h
          cases res with
          | error e => cases h
          | ok triple =>
            obtain ⟨Vg, Bg, rg⟩ := triple
            have hrefs : ∀ n ∈ referants c,
                List.Chain' (edge records) ((B ++ [c.key]) ++ [n]) := by
              intro n hn
              rw [List.chain'_append]
              refine ⟨hch, by simp, ?_⟩
              intro x hx y hy
              simp only [List.getLast?_concat, List.head?_cons, Option.mem_def,
                Option.some.injEq] at hx hy
              subst hx
              subst hy
              exact edge_intro hbc hn
            obtain ⟨hrg, hBg⟩ := goRefs_nc records _
              (fun u Vx Bx V2x B2x rx hbu hchu hgu =>
                ih u Vx Bx V2x B2x rx hbu hchu hgu)
              (referants c) (V ++ [c.key]) (B ++ [c.key]) Vg Bg rg hrefs hg
            subst hrg
            subst hBg
            simp only at h
            cases h
            exact ⟨rfl, erase_append_self hB⟩

/-- In an acyclic collection the root loop reports no cycle strings. -/
theorem detectRoots_nc (records : List Record) (hnc : ¬ HasCycle records)
    (hnd : (keysOf records).Nodup) (fuel : Nat) :
    ∀ (cs : List Record) (V acc res : List String),
      (∀ c ∈ cs, c ∈ records) →
      detectRoots records fuel cs V [] acc = some (.ok res) → res = acc := by
  intro cs
  induction cs with
  | nil =>
    intro V acc res _ h
    simp only [detectRoots] at h
    cases h
    rfl
  | cons c cs ih =>
    intro V acc res hcs h
    simp only [detectRoots] at h
    cases hg : getCycleF records fuel c V [] with
    | none => rw [hg] at h; cases h
    | some gres =>
      rw [hg] at h
      cases gres with
      | error e => cases h
      | ok triple =>
        obtain ⟨V2, B2, r⟩ := triple
        have hbc : byName records c.key = some c :=
          byName_nodup hnd (hcs c (by simp))
        have hch : List.Chain' (edge records) (([] : List String) ++ [c.key]) := by
          simp
        obtain ⟨hr, hB2⟩ := getCycleF_nc records hnc fuel c V [] V2 B2 r hbc hch hg
        subst hr
        subst hB2
        simp only at h
        rw [if_neg (by simp [pyTruthy])] at h
        exact ih V2 acc res (fun x hx => hcs x (by simp [hx])) h

/-- A clean (cycle-free) referent loop restores the branch it was given. -/
theorem goRefs_clean (records : List Record)
    (gc : Record → List String → List String → Option (Except String CycRes))
    (hgc_r : ∀ (u : Record) (V B V2 B2 : List String),
      gc u V B = some (.ok (V2, B2, none)) → B2 = B)
    (hgc_ne : ∀ (u : Record) (V B V2 B2 : List String) (l : List String),
      gc u V B = some (.ok (V2, B2, some l)) → l ≠ []) :
    ∀ (names V B V2 B2 : List String),
      goRefs records gc names V B = some (.ok (V2, B2, none)) → B2 = B := by
  intro names
  induction names with
  | nil =>
    intro V B V2 B2 h
    simp only [goRefs] at h
    cases h
    rfl
  | cons n ns ih =>
    intro V B V2 B2 h
    simp only [goRefs] at h
    cases hb : byName records n with
    | none => rw [hb] at h; cases h
    | some u =>
      rw [hb] at h
      simp only at h
      cases hg : gc u V B with
      | none => rw [hg] at h; cases h
      | some res =>
        rw [hg] at h
        cases res with
        | error e => cases h
        | ok triple =>
          obtain ⟨Vc, Bc, rc⟩ := triple
          simp only at h
          cases rc with
          | some lc =>
            cases hlc : lc with
            | nil => exact absurd hlc (hgc_ne u V B Vc Bc lc hg)
            | cons x xs =>
              subst hlc
              rw [if_pos (by rfl)] at h
              cases h
          | none =>
            have hBc := hgc_r u V B Vc Bc hg
            subst hBc
            rw [if_neg (by simp [pyTruthy])] at h
            exact ih Vc Bc V2 B2 h

/-- A clean `get_cycle` run restores the branch it was given. -/
theorem getCycleF_restore (records : List Record) :
    ∀ (fuel : Nat) (c : Record) (V B V2 B2 : List String),
      getCycleF records fuel c V B = some (.ok (V2, B2, none)) → B2 = B := by
  intro fuel
  induction fuel with
  | zero => intro c V B V2 B2 h; cases h
  | succ fuel ih =>
    intro c V B V2 B2 h
    simp only [getCycleF] at h
    by_cases hB : c.key ∈ B
    · rw [if_pos hB] at h; cases h
    · rw [if_neg hB] at h
      by_cases hV : c.key ∈ V
      · rw [if_pos hV] at h
        cases h
        rfl
      · rw [if_neg hV] at h
        cases hg : goRefs records (getCycleF records fuel) (referants c)
            (V ++ [c.key]) (B ++ [c.key]) with
        | none => rw [hg] at h; cases h
        | some res =>
          rw [hg] at h
          cases res with
          | error e => cases h
          | ok triple =>
            obtain ⟨Vg, Bg, rg⟩ := triple
            cases rg with
            | some lg => simp only at h; cases h
            | none =>
              simp only at h
              have hBg : Bg = B ++ [c.key] :=
                goRefs_clean records _
                  (fun u Vx Bx V2x B2x hh => ih u Vx Bx V2x B2x hh)
                  (fun u Vx Bx V2x B2x l hh =>
                    getCycleF_cycle_nonempty records fuel u Vx Bx V2x B2x l hh)
                  (referants c) _ _ _ _ hg
              cases h
              rw [hBg]
              exact erase_append_self hB

/-- A clean `get_cycle` run is never entered with its key on the branch. -/
theorem getCycleF_clean_notB (records : List Record) :
    ∀ (fuel : Nat) (c : Record) (V B V2 B2 : List String),
      getCycleF records fuel c V B = some (.ok (V2, B2, none)) → c.key ∉ B := by
  intro fuel c V B V2 B2 h hmem
  cases fuel with
  | zero => cases h
  | succ fuel =>
    simp only [getCycleF, if_pos hmem] at h
    cases h

/-- A key all of whose forward edge descents terminate: no infinite (in
particular no cyclic) chain of referent edges leaves it. -/
def GoodKey (records : List Record) (k : String) : Prop :=
  Acc (fun a b => edge records b a) k

/-- A clean referent loop visits every listed name, keeps each off the
branch, and certifies every newly visited key accessible. -/
theorem goRefs_good (records : List Record) (fuel : Nat)
    (hgc_good : ∀ (u : Record) (V B V2 B2 : List String),
      byName records u.key = some u →
      getCycleF records fuel u V B = some (.ok (V2, B2, none)) →
      (∀ k ∈ V, k ∉ B → GoodKey records k) →
      u.key ∈ V2 ∧ ∀ k ∈ V2, k ∉ B → GoodKey records k) :
    ∀ (names V B V2 B2 : List String),
      goRefs records (getCycleF records fuel) names V B = some (.ok (V2, B2, none)) →
      (∀ k ∈ V, k ∉ B → GoodKey records k) →
      (∀ n ∈ names, n ∈ V2 ∧ n ∉ B) ∧
        (∀ k ∈ V2, k ∉ B → GoodKey records k) := by
  intro names
  induction names with
  | nil =>
    intro V B V2 B2 h hinv
    simp only [goRefs] at h
    cases h
    exact ⟨fun n hn => absurd hn (List.not_mem_nil n), hinv⟩
  | cons n ns ih =>
    intro V B V2 B2 h hinv
    simp only [goRefs] at h
    cases hb : byName records n with
    | none => rw [hb] at h; cases h
    | some u =>
      rw [hb] at h
      simp only at h
      have hukey : u.key = n := (byName_some_mem hb).2
      cases hg : getCycleF records fuel u V B with
      | none => rw [hg] at h; cases h
      | some res =>
        rw [hg] at h
        cases res with
        | error e => cases h
        | ok triple =>
          obtain ⟨Vc, Bc, rc⟩ := triple
          simp only at h
          cases rc with
          | some lc =>
            cases hlc : lc with
            | nil =>
              exact absurd hlc
                (getCycleF_cycle_nonempty records fuel u V B Vc Bc lc hg)
            | cons x xs =>
              subst hlc
              rw [if_pos (by rfl)] at h
              cases h
          | none =>
            have hBc : Bc = B := getCycleF_restore records fuel u V B Vc Bc hg
            subst hBc
            have hnB : u.key ∉ Bc := getCycleF_clean_notB records fuel u V Bc Vc Bc hg
            obtain ⟨hukVc, hgoodVc⟩ :=
              hgc_good u V Bc Vc Bc (byName_some_key hb) hg hinv
            rw [if_neg (by simp [pyTruthy])] at h
            obtain ⟨hns, hgood2⟩ := ih Vc Bc V2 B2 h hgoodVc
            obtain ⟨t, ht⟩ := goRefs_mono records _
              (fun ux Vx Bx V2x B2x rx hh =>
                getCycleF_mono records fuel ux Vx Bx V2x B2x rx hh)
              ns Vc Bc V2 B2 none h
            refine ⟨?_, hgood2⟩
            intro m hm
            rcases List.mem_cons.mp hm with h1 | h1
            · subst h1
              rw [← hukey]
              exact ⟨ht ▸ List.mem_append_left _ hukVc, hnB⟩
            · exact hns m h1

/-- A clean `get_cycle` run marks its concept visited and certifies every
newly visited key (its own included) accessible: beneath a visited key no
cycle hides. -/
theorem getCycleF_good (records : List Record) :
    ∀ (fuel : Nat) (c : Record) (V B V2 B2 : List String),
      byName records c.key = some c →
      getCycleF records fuel c V B = some (.ok (V2, B2, none)) →
      (∀ k ∈ V, k ∉ B → GoodKey records k) →
      c.key ∈ V2 ∧ ∀ k ∈ V2, k ∉ B → GoodKey records k := by
  intro fuel
  induction fuel with
  | zero => intro c V B V2 B2 _ h _; cases h
  | succ fuel ih =>
    intro c V B V2 B2 hbc h hinv
    simp only [getCycleF] at h
    by_cases hB : c.key ∈ B
    · rw [if_pos hB] at h; cases h
    · rw [if_neg hB] at h
      by_cases hV : c.key ∈ V
      · rw [if_pos hV] at h
        cases h
        exact ⟨hV, hinv⟩
      · rw [if_neg hV] at h
        cases hg : goRefs records (getCycleF records fuel) (referants c)
            (V ++ [c.key]) (B ++ [c.key]) with
        | none => rw [hg] at h; cases h
        | some res =>
          rw [hg] at h
          cases res with
          | error e => cases h
          | ok triple =>
            obtain ⟨Vg, Bg, rg⟩ := triple
            cases rg with
            | some lg => simp only at h; cases h
            | none =>
              simp only at h
              have hinv2 : ∀ k ∈ V ++ [c.key], k ∉ B ++ [c.key] →
                  GoodKey records k := by
                intro k hk hkB
                rcases List.mem_append.mp hk with h1 | h1
                · exact hinv k h1 (fun hm => hkB (List.mem_append_left _ hm))
                · exact absurd (List.mem_append_right _ h1) hkB
              obtain ⟨hrefs, hgood⟩ := goRefs_good records fuel
                (fun u Vx Bx V2x B2x hbu hgu hin =>
                  ih u Vx Bx V2x B2x hbu hgu hin)
                (referants c) (V ++ [c.key]) (B ++ [c.key]) Vg Bg hg hinv2
              have hckVg : c.key ∈ Vg := by
                obtain ⟨t, ht⟩ := goRefs_mono records _
                  (fun ux Vx Bx V2x B2x rx hh =>
                    getCycleF_mono records fuel ux Vx Bx V2x B2x rx hh)
                  (referants c) _ _ _ _ _ hg
                rw [ht]
                exact List.mem_append_left _ (List.mem_append_right _ (by simp))
              have hgoodc : GoodKey records c.key := by
                refine Acc.intro _ ?_
                intro y hy
                obtain ⟨c2, hb2, hy2⟩ := edge_elim hy
                rw [hbc] at hb2
                cases hb2
                obtain ⟨hyVg, hynB⟩ := hrefs y hy2
                exact hgood y hyVg hynB
              cases h
              refine ⟨hckVg, ?_⟩
              intro k hk hkB
              by_cases hkc : k = c.key
              · exact hkc ▸ hgoodc
              · refine hgood k hk ?_
                intro hm
                rcases List.mem_append.mp hm with h1 | h1
                · exact hkB h1
                · exact hkc (by simpa using h1)

/-- No edge cycle passes through an accessible key. -/
theorem goodKey_no_cycle (records : List Record) {k : String}
    (hg : GoodKey records k) :
    ∀ l, ¬ List.Chain (edge records) k (l ++ [k]) := by
  induction hg with
  | intro k2 hacc ih =>
    intro l hch
    cases l with
    | nil =>
      rw [List.nil_append] at hch
      have hedge : edge records k2 k2 := (List.chain_cons.mp hch).1
      exact ih k2 hedge [] (by rw [List.nil_append]; exact hch)
    | cons y l2 =>
      rw [List.cons_append, List.chain_cons] at hch
      obtain ⟨hky, hch2⟩ := hch
      have hext : List.Chain (edge records) y ((l2 ++ [k2]) ++ [y]) := by
        rw [List.append_assoc]
        exact List.chain_split.mpr
          ⟨hch2, List.chain_cons.mpr ⟨hky, List.Chain.nil⟩⟩
      exact ih y hky (l2 ++ [k2]) hext

/-- If every record key is accessible the collection is acyclic. -/
theorem no_cycle_of_all_good (records : List Record)
    (hgood : ∀ c ∈ records, GoodKey records c.key) : ¬ HasCycle records := by
  rintro ⟨k, l, hch⟩
  cases hl : l ++ [k] with
  | nil => exact absurd hl (by simp)
  | cons x rest =>
    rw [hl] at hch
    have hkx : edge records k x := (List.chain_cons.mp hch).1
    obtain ⟨c, hbc, -⟩ := edge_elim hkx
    obtain ⟨hcm, hck⟩ := byName_some_mem hbc
    have hgk := hgood c hcm
    rw [hck] at hgk
    rw [← hl] at hch
    exact goodKey_no_cycle records hgk l hch

/-- The root loop only ever appends to its accumulator of cycle strings. -/
theorem detectRoots_acc_mono (records : List Record) (fuel : Nat) :
    ∀ (cs : List Record) (V B acc res : List String),
      detectRoots records fuel cs V B acc = some (.ok res) →
      ∃ t, res = acc ++ t := by
  intro cs
  induction cs with
  | nil =>
    intro V B acc res h
    simp only [detectRoots] at h
    cases h
    exact ⟨[], by simp⟩
  | cons c cs ih =>
    intro V B acc res h
    simp only [detectRoots] at h
    cases hg : getCycleF records fuel c V B with
    | none => rw [hg] at h; cases h
    | some gres =>
      rw [hg] at h
      cases gres with
      | error e => cases h
      | ok triple =>
        obtain ⟨V2, B2, r⟩ := triple
        simp only at h
        by_cases htr : pyTruthy r = true
        · rw [if_pos htr] at h
          by_cases hall : acc.all (fun t => !(strIn (joinArrows (r.getD [])) t)) = true
          · rw [if_pos hall] at h
            obtain ⟨t, ht⟩ := ih _ _ _ _ h
            exact ⟨joinArrows (r.getD []) :: t, by rw [ht, List.append_assoc]; rfl⟩
          · rw [if_neg hall] at h
            exact ih _ _ _ _ h
        · rw [if_neg htr] at h
          exact ih _ _ _ _ h

/-- A silent root loop (no cycle strings collected) certifies every root
key accessible. -/
theorem detectRoots_allgood (records : List Record) (hnd : (keysOf records).Nodup)
    (fuel : Nat) :
    ∀ (cs : List Record) (V B : List String),
      (∀ c ∈ cs, c ∈ records) →
      (∀ k ∈ V, k ∉ B → GoodKey records k) →
      detectRoots records fuel cs V B [] = some (.ok []) →
      ∀ c ∈ cs, GoodKey records c.key := by
  intro cs
  induction cs with
  | nil => intro V B _ _ _ c hc; cases hc
  | cons c cs ih =>
    intro V B hcs hinv h
    simp only [detectRoots] at h
    cases hg : getCycleF records fuel c V B with
    | none => rw [hg] at h; cases h
    | some gres =>
      rw [hg] at h
      cases gres with
      | error e => cases h
      | ok triple =>
        obtain ⟨V2, B2, r⟩ := triple
        simp only at h
        cases r with
        | some lr =>
          exfalso
          cases hlr : lr with
          | nil =>
            exact absurd hlr
              (getCycleF_cycle_nonempty records fuel c V B V2 B2 lr hg)
          | cons x xs =>
            subst hlr
            rw [if_pos (by rfl)] at h
            rw [if_pos (by rfl)] at h
            obtain ⟨t, ht⟩ := detectRoots_acc_mono records fuel _ _ _ _ _ h
            simp at ht
        | none =>
          have hB2 : B2 = B := getCycleF_restore records fuel c V B V2 B2 hg
          subst hB2
          have hbc : byName records c.key = some c :=
            byName_nodup hnd (hcs c (by simp))
          obtain ⟨hckV2, hgood2⟩ := getCycleF_good records fuel c V B2 V2 B2 hbc hg hinv
          have hnB : c.key ∉ B2 := getCycleF_clean_notB records fuel c V B2 V2 B2 hg
          rw [if_neg (by simp [pyTruthy])] at h
          intro x hx
          rcases List.mem_cons.mp hx with h1 | h1
          · subst h1
            exact hgood2 x.key hckV2 hnB
          · exact ih V2 B2 (fun y hy => hcs y (by simp [hy])) hgood2 h x h1

/-- C5: on a collection with unique, resolving keys `detect_cycles`
completes, returning silently exactly when the reference graph is acyclic:
it reports no cycles on any DAG, and raises the cycle error on any
collection containing a cycle, self-loops (cycles of length 1) included. -/
theorem detectCycles_dichotomy (records : List Record)
    (hnd : (keysOf records).Nodup) (hres : Resolves records) :
    ∃ r, detectCycles records (records.length + 1) = some r ∧
      (r = .ok () ↔ ¬ HasCycle records) := by
  have hfuel : ((keysOf records).toFinset \
      (([] : List String)).toFinset).card < records.length + 1 := by
    simp only [List.toFinset_nil, Finset.sdiff_empty]
    have h1 : (keysOf records).toFinset.card ≤ (keysOf records).length :=
      (keysOf records).toFinset_card_le
    have h2 : (keysOf records).length = records.length := by simp [keysOf]
    omega
  cases hd : detectRoots records (records.length + 1) records [] [] [] with
  | none =>
    exact absurd hd (detectRoots_total records (records.length + 1) records
      [] [] [] (fun c hc => hc) hfuel)
  | some dres =>
    cases dres with
    | error e =>
      exact absurd hd (detectRoots_noerr records hres (records.length + 1)
        records [] [] [] e (fun c hc => hc))
    | ok strs =>
      cases strs with
      | nil =>
        refine ⟨.ok (), ?_, ?_⟩
        · simp only [detectCycles, hd]
        · constructor
          · intro _
            exact no_cycle_of_all_good records
              (detectRoots_allgood records hnd (records.length + 1) records [] []
                (fun c hc => hc) (fun k hk => absurd hk (List.not_mem_nil k)) hd)
          · intro _
            rfl
      | cons s ss =>
        refine ⟨.error (cycleMsgBase ++ joinSep "\n\t" (s :: ss)), ?_, ?_⟩
        · simp only [detectCycles, hd]
        · constructor
          · intro hcon
            cases hcon
          · intro hnc
            exfalso
            have hemp := detectRoots_nc records hnc hnd (records.length + 1)
              records [] [] (s :: ss) (fun c hc => hc) hd
            cases hemp

/-- The smallest self-loop: a record listing its own key as a member. -/
def scenarioC5 : List Record := [mkRec "x" "x" ""]

/-- Witness for C5 on a self-loop collection (a cycle of length 1). -/
theorem detectCycles_dichotomy_witness :
    (keysOf scenarioC5).Nodup ∧ Resolves scenarioC5 ∧ HasCycle scenarioC5 ∧
    (∃ r, detectCycles scenarioC5 (scenarioC5.length + 1) = some r ∧
      (r = .ok () ↔ ¬ HasCycle scenarioC5)) :=
  ⟨by decide, resolves_of_check _ (by decide),
    ⟨"x", [], List.Chain.cons (by decide) List.Chain.nil⟩,
    detectCycles_dichotomy scenarioC5 (by decide)
      (resolves_of_check _ (by decide))⟩

/-- A clean referent loop looked every listed name up successfully. -/
theorem goRefs_resolve (records : List Record)
    (gc : Record → List String → List String → Option (Except String CycRes)) :
    ∀ (names V B V2 B2 : List String),
      goRefs records gc names V B = some (.ok (V2, B2, none)) →
      ∀ n ∈ names, ∃ w, byName records n = some w := by
  intro names
  induction names with
  | nil => intro V B V2 B2 _ n hn; cases hn
  | cons n ns ih =>
    intro V B V2 B2 h m hm
    simp only [goRefs] at h
    cases hb : byName records n with
    | none => rw [hb] at h; cases h
    | some u =>
      rw [hb] at h
      simp only at h
      cases hg : gc u V B with
      | none => rw [hg] at h; cases h
      | some res =>
        rw [hg] at h
        cases res with
        | error e => cases h
        | ok triple =>
          obtain ⟨Vc, Bc, rc⟩ := triple
          simp only at h
          rcases List.mem_cons.mp hm with h1 | h1
          · exact ⟨u, h1 ▸ hb⟩
          · by_cases htr : pyTruthy rc = true
            · rw [if_pos htr] at h
              cases h
            · rw [if_neg htr] at h
              exact ih Vc Bc V2 B2 h m h1

/-- Every referent of the record a key resolves to itself resolves. -/
def RefsOk (records : List Record) (k : String) : Prop :=
  ∀ w, byName records k = some w →
    ∀ n ∈ referants w, ∃ w2, byName records n = some w2

/-- A clean referent loop gives `RefsOk` for every newly visited key. -/
theorem goRefs_cl (records : List Record) (fuel : Nat)
    (hgc : ∀ (u : Record) (V B V2 B2 : List String),
      byName records u.key = some u →
      getCycleF records fuel u V B = some (.ok (V2, B2, none)) →
      ∀ k ∈ V2, k ∉ V → RefsOk records k) :
    ∀ (names V B V2 B2 : List String),
      goRefs records (getCycleF records fuel) names V B = some (.ok (V2, B2, none)) →
      ∀ k ∈ V2, k ∉ V → RefsOk records k := by
  intro names
  induction names with
  | nil =>
    intro V B V2 B2 h k hk hkV
    simp only [goRefs] at h
    cases h
    exact absurd hk hkV
  | cons n ns ih =>
    intro V B V2 B2 h k hk hkV
    simp only [goRefs] at h
    cases hb : byName records n with
    | none => rw [hb] at h; cases h
    | some u =>
      rw [hb] at h
      simp only at h
      cases hg : getCycleF records fuel u V B with
      | none => rw [hg] at h; cases h
      | some res =>
        rw [hg] at h
        cases res with
        | error e => cases h
        | ok triple =>
          obtain ⟨Vc, Bc, rc⟩ := triple
          simp only at h
          cases rc with
          | some lc =>
            cases hlc : lc with
            | nil =>
              exact absurd hlc
                (getCycleF_cycle_nonempty records fuel u V B Vc Bc lc hg)
            | cons x xs =>
              subst hlc
              rw [if_pos (by rfl)] at h
              cases h
          | none =>
            rw [if_neg (by simp [pyTruthy])] at h
            by_cases hkVc : k ∈ Vc
            · exact hgc u V B Vc Bc (byName_some_key hb) hg k hkVc hkV
            · exact ih Vc Bc V2 B2 h k hk hkVc

/-- A clean `get_cycle` run gives `RefsOk` for every newly visited key. -/
theorem getCycleF_cl (records : List Record) :
    ∀ (fuel : Nat) (c : Record) (V B V2 B2 : List String),
      byName records c.key = some c →
      getCycleF records fuel c V B = some (.ok (V2, B2, none)) →
      ∀ k ∈ V2, k ∉ V → RefsOk records k := by
  intro fuel
  induction fuel with
  | zero => intro c V B V2 B2 _ h; cases h
  | succ fuel ih =>
    intro c V B V2 B2 hbc h k hk hkV
    simp only [getCycleF] at h
    by_cases hB : c.key ∈ B
    · rw [if_pos hB] at h; cases h
    · rw [if_neg hB] at h
      by_cases hV : c.key ∈ V
      · rw [if_pos hV] at h
        cases h
        exact absurd hk hkV
      · rw [if_neg hV] at h
        cases hg : goRefs records (getCycleF records fuel) (referants c)
            (V ++ [c.key]) (B ++ [c.key]) with
        | none => rw [hg] at h; cases h
        | some res =>
          rw [hg] at h
          cases res with
          | error e => cases h
          | ok triple =>
            obtain ⟨Vg, Bg, rg⟩ := triple
            cases rg with
            | some lg => simp only at h; cases h
            | none =>
              simp only at h
              cases h
              by_cases hkc : k = c.key
              · subst hkc
                intro w hw
                rw [hbc] at hw
                cases hw
                exact goRefs_resolve records _ (referants c) _ _ _ _ hg
              · refine goRefs_cl records fuel
                  (fun u Vx Bx V2x B2x hbu hgu => ih u Vx Bx V2x B2x hbu hgu)
                  (referants c) (V ++ [c.key]) (B ++ [c.key]) _ _ hg k hk ?_
                intro hm
                rcases List.mem_append.mp hm with h1 | h1
                · exact hkV h1
                · exact hkc (by simpa using h1)

/-- A silent root loop certifies that every root record's referents all
resolve. -/
theorem detectRoots_resolve (records : List Record)
    (hnd : (keysOf records).Nodup) (fuel : Nat) :
    ∀ (cs : List Record) (V : List String),
      (∀ c ∈ cs, c ∈ records) →
      (∀ k ∈ V, RefsOk records k) →
      detectRoots records fuel cs V [] [] = some (.ok []) →
      ∀ c ∈ cs, ∀ n ∈ referants c, ∃ w2, byName records n = some w2 := by
  intro cs
  induction cs with
  | nil => intro V _ _ _ c hc; cases hc
  | cons c cs ih =>
    intro V hcs hinv h
    simp only [detectRoots] at h
    cases hg : getCycleF records fuel c V [] with
    | none => rw [hg] at h; cases h
    | some gres =>
      rw [hg] at h
      cases gres with
      | error e => cases h
      | ok triple =>
        obtain ⟨V2, B2, r⟩ := triple
        simp only at h
        cases r with
        | some lr =>
          exfalso
          cases hlr : lr with
          | nil =>
            exact absurd hlr
              (getCycleF_cycle_nonempty records fuel c V [] V2 B2 lr hg)
          | cons x xs =>
            subst hlr
            rw [if_pos (by rfl)] at h
            rw [if_pos (by rfl)] at h
            obtain ⟨t, ht⟩ := detectRoots_acc_mono records fuel _ _ _ _ _ h
            simp at ht
        | none =>
          have hB2 : B2 = [] := getCycleF_restore records fuel c V [] V2 B2 hg
          subst hB2
          have hbc : byName records c.key = some c :=
            byName_nodup hnd (hcs c (by simp))
          have hinv2 : ∀ k ∈ V2, RefsOk records k := by
            intro k hk
            by_cases hkV : k ∈ V
            · exact hinv k hkV
            · exact getCycleF_cl records fuel c V [] V2 [] hbc hg k hk hkV
          rw [if_neg (by simp [pyTruthy])] at h
          intro x hx
          rcases List.mem_cons.mp hx with h1 | h1
          · subst h1
            by_cases hxV : x.key ∈ V
            · exact fun n hn => hinv x.key hxV x hbc n hn
            · rcases getCycleF_key_mem records fuel x V [] V2 [] none hg with
                hcon | hmem
              · cases hcon
              · exact fun n hn => hinv2 x.key hmem x hbc n hn
          · exact ih V2 (fun y hy => hcs y (by simp [hy])) hinv2 h x h1

/-- With a referent key missing from the order dict, a pass over the
records raises before completing. -/
theorem onePassAux_err (records : List Record) {u : Record} {r : String}
    (hbad : r ∉ keysOf records) :
    ∀ (cs : List Record) (d : List (String × ℤ)) (ch : Bool),
      u ∈ cs → r ∈ referants u → d.map Prod.fst = keysOf records →
      ∃ e, onePassAux cs d ch = .error e := by
  intro cs
  induction cs with
  | nil => intro d ch hu; cases hu
  | cons c cs ih =>
    intro d ch hu hr hmap
    cases hrc : referants c with
    | nil =>
      have hucs : u ∈ cs := by
        rcases List.mem_cons.mp hu with h1 | h1
        · subst h1; rw [hrc] at hr; cases hr
        · exact h1
      obtain ⟨e, he⟩ := ih d ch hucs hr hmap
      exact ⟨e, by simp only [onePassAux, hrc]; exact he⟩
    | cons r0 rs =>
      cases hmo : mapO (dictGet d) (r0 :: rs) with
      | none => exact ⟨"KeyError", by simp only [onePassAux, hrc, hmo]⟩
      | some vs0 =>
        cases vs0 with
        | nil =>
          exfalso
          have := mapO_length hmo
          simp at this
        | cons v0 vs =>
          have hucs : u ∈ cs := by
            rcases List.mem_cons.mp hu with h1 | h1
            · exfalso
              subst h1
              rw [hrc] at hr
              obtain ⟨b, hb, hfb⟩ := mapO_forall_mem hmo hr
              have hmem : r ∈ d.map Prod.fst :=
                List.mem_map_of_mem Prod.fst (dictGet_some_mem hfb)
              rw [hmap] at hmem
              exact hbad hmem
            · exact h1
          cases hdc : dictGet d c.key with
          | none => exact ⟨c.key, by simp only [onePassAux, hrc, hmo, hdc]⟩
          | some cur =>
            by_cases hle : cur ≤ maxI v0 vs
            · have hck : c.key ∈ d.map Prod.fst :=
                List.mem_map_of_mem Prod.fst (dictGet_some_mem hdc)
              have hmap2 : (dictInsert d c.key (maxI v0 vs + 1)).map Prod.fst =
                  keysOf records := by
                rw [dictInsert_map_fst_mem hck]
                exact hmap
              obtain ⟨e, he⟩ := ih _ true hucs hr hmap2
              exact ⟨e, by
                simp only [onePassAux, hrc, hmo, hdc, if_pos hle]
                exact he⟩
            · obtain ⟨e, he⟩ := ih d ch hucs hr hmap
              exact ⟨e, by
                simp only [onePassAux, hrc, hmo, hdc, if_neg hle]
                exact he⟩

/-- Inner termination argument for the tree walk without any resolution
assumption: an unresolvable dequeued name ends the run with a `KeyError`
result, which also terminates. -/
theorem treeAux_any_inner (records : List Record) (S0 : List String)
    (hS0 : ∀ k ∈ S0, k ∈ keysOf records)
    (escape : ∀ (Q S : List String), (∀ k ∈ S, k ∈ keysOf records) →
      S0.toFinset ⊂ S.toFinset →
      ∃ fuel res, treeAux records fuel Q S = some res) :
    ∀ (m : ℕ) (Q : List String),
      Q.countP (fun k => decide (k ∈ S0)) ≤ m →
      ∃ fuel res, treeAux records fuel Q S0 = some res := by
  have hstep : ∀ (Q2 : List String) (k : String), k ∉ S0 →
      ∃ fuel res, treeAux records (fuel + 1) (k :: Q2) S0 = some res := by
    intro Q2 k hkS
    cases hu : byName records k with
    | none => exact ⟨0, .error k, by simp [treeAux, hu]⟩
    | some w =>
      have hkU : k ∈ keysOf records := by
        obtain ⟨hm, hk⟩ := byName_some_mem hu
        exact hk ▸ List.mem_map_of_mem Record.key hm
      have hS' : ∀ x ∈ addSet S0 k, x ∈ keysOf records := by
        intro x hx
        rcases mem_addSet.mp hx with h1 | h1
        · exact hS0 x h1
        · exact h1 ▸ hkU
      have hsub : S0.toFinset ⊂ (addSet S0 k).toFinset := by
        rw [addSet_toFinset]
        exact Finset.ssubset_insert (by simpa using hkS)
      obtain ⟨fuel, res, hrun⟩ := escape _ _ hS' hsub
      refine ⟨fuel, res, ?_⟩
      simp only [treeAux, hu]
      exact hrun
  intro m
  induction m with
  | zero =>
    intro Q hcount
    cases Q with
    | nil => exact ⟨1, .ok S0, by simp [treeAux]⟩
    | cons k Q2 =>
      by_cases hkS : k ∈ S0
      · exfalso
        rw [List.countP_cons_of_pos _ _ (by simpa using hkS)] at hcount
        omega
      · obtain ⟨fuel, res, hrun⟩ := hstep Q2 k hkS
        exact ⟨fuel + 1, res, hrun⟩
  | succ m ihm =>
    intro Q hcount
    cases Q with
    | nil => exact ⟨1, .ok S0, by simp [treeAux]⟩
    | cons k Q2 =>
      by_cases hkS : k ∈ S0
      · obtain ⟨w, hw⟩ := byName_mem_keys (hS0 k hkS)
        have haddeq : addSet S0 k = S0 := addSet_of_mem hkS
        have hcount' : (Q2 ++ (referants w).filter
            (fun nn => nn ∉ addSet S0 k)).countP
              (fun x => decide (x ∈ S0)) ≤ m := by
          rw [List.countP_append]
          have hzero : ((referants w).filter (fun nn => nn ∉ addSet S0 k)).countP
              (fun x => decide (x ∈ S0)) = 0 := by
            rw [List.countP_eq_zero]
            intro a ha
            have := (List.mem_filter.mp ha).2
            rw [haddeq] at this
            simpa using this
          rw [hzero]
          rw [List.countP_cons_of_pos _ _ (by simpa using hkS)] at hcount
          omega
        obtain ⟨fuel, res, hrun⟩ := ihm _ hcount'
        refine ⟨fuel + 1, res, ?_⟩
        simp only [treeAux, hw]
        rw [haddeq] at hrun ⊢
        exact hrun
      · obtain ⟨fuel, res, hrun⟩ := hstep Q2 k hkS
        exact ⟨fuel + 1, res, hrun⟩

/-- Outer termination argument for the tree walk without any resolution
assumption. -/
theorem treeAux_any_outer (records : List Record) :
    ∀ (n : ℕ) (S Q : List String),
      (∀ k ∈ S, k ∈ keysOf records) →
      ((keysOf records).toFinset \ S.toFinset).card ≤ n →
      ∃ fuel res, treeAux records fuel Q S = some res := by
  intro n
  induction n with
  | zero =>
    intro S Q hS hcard
    refine treeAux_any_inner records S hS ?_ _ Q le_rfl
    intro Q' S' hS' hsub
    exfalso
    obtain ⟨x, hxS', hxS⟩ := Finset.exists_of_ssubset hsub
    have hxU : x ∈ (keysOf records).toFinset := by
      simp only [List.mem_toFinset] at hxS'
      simpa using hS' x hxS'
    have hmem : x ∈ (keysOf records).toFinset \ S.toFinset :=
      Finset.mem_sdiff.mpr ⟨hxU, hxS⟩
    have := Finset.card_pos.mpr ⟨x, hmem⟩
    omega
  | succ n ihn =>
    intro S Q hS hcard
    refine treeAux_any_inner records S hS ?_ _ Q le_rfl
    intro Q' S' hS' hsub
    refine ihn S' Q' hS' ?_
    have hsdiff : (keysOf records).toFinset \ S'.toFinset ⊂
        (keysOf records).toFinset \ S.toFinset := by
      refine Finset.ssubset_iff_of_subset
        (Finset.sdiff_subset_sdiff (le_refl _) hsub.subset) |>.mpr ?_
      obtain ⟨x, hxS', hxS⟩ := Finset.exists_of_ssubset hsub
      have hxU : x ∈ (keysOf records).toFinset := by
        simp only [List.mem_toFinset] at hxS'
        simpa using hS' x hxS'
      refine ⟨x, Finset.mem_sdiff.mpr ⟨hxU, hxS⟩, ?_⟩
      simp only [Finset.mem_sdiff, not_and, not_not]
      intro _
      exact hxS'
    have := Finset.card_lt_card hsdiff
    omega

/-- One edge step stays inside a referent-closed set. -/
theorem closed_edge_step (records : List Record) {S2 : List String}
    (hcl : ∀ k ∈ S2, ∃ w, byName records k = some w ∧
      ∀ x ∈ referants w, x ∈ S2)
    {a b : String} (ha : a ∈ S2) (hab : edge records a b) : b ∈ S2 := by
  obtain ⟨c, hbc, hrb⟩ := edge_elim hab
  obtain ⟨w, hw, hrefs⟩ := hcl a ha
  rw [hbc] at hw
  cases hw
  exact hrefs b hrb

/-- Reachability along edges stays inside a referent-closed set. -/
theorem reach_mem_closed (records : List Record) {S2 : List String}
    (hcl : ∀ k ∈ S2, ∃ w, byName records k = some w ∧
      ∀ x ∈ referants w, x ∈ S2) :
    ∀ (l : List String) (a b : String), a ∈ S2 →
      List.Chain (edge records) a (l ++ [b]) → b ∈ S2 := by
  intro l
  induction l with
  | nil =>
    intro a b ha hch
    rw [List.nil_append] at hch
    exact closed_edge_step records hcl ha (List.chain_cons.mp hch).1
  | cons x l2 ih =>
    intro a b ha hch
    rw [List.cons_append, List.chain_cons] at hch
    exact ih x b (closed_edge_step records hcl ha hch.1) hch.2

/-- C8: when some record lists a referent key `r` that resolves to no
record in the collection, `move_referring_concepts_down` raises on its
very first pass (any positive fuel), `detect_cycles` raises, and
`get_all_concepts_in_tree` never returns a result — and itself raises —
whenever the offending record is reachable from the root; no partial
output is produced by any of the three. -/
theorem unresolved_referent_errors (records : List Record) (u : Record)
    (r : String) (hnd : (keysOf records).Nodup) (hu : u ∈ records)
    (hr : r ∈ referants u) (hbad : byName records r = none) :
    (∀ fuel : Nat, ∃ e,
      moveReferringConceptsDown records (fuel + 1) = some (.error e)) ∧
    (∃ e, detectCycles records (records.length + 1) = some (.error e)) ∧
    (∀ root, Reachable records root u.key →
      (∀ fuel out, getAllConceptsInTree records root fuel ≠ some (.ok out)) ∧
      (∃ fuel e, getAllConceptsInTree records root fuel = some (.error e))) := by
  have hrK : r ∉ keysOf records := byName_none_iff.mp hbad
  refine ⟨?_, ?_, ?_⟩
  · intro fuel
    obtain ⟨e, he⟩ := onePassAux_err records hrK records (initOrder records)
      false hu hr (initOrder_map_fst hnd)
    refine ⟨e, ?_⟩
    simp only [moveReferringConceptsDown, mrcdLoop, onePass, he]
  · have hfuel : ((keysOf records).toFinset \
        (([] : List String)).toFinset).card < records.length + 1 := by
      simp only [List.toFinset_nil, Finset.sdiff_empty]
      have h1 : (keysOf records).toFinset.card ≤ (keysOf records).length :=
        (keysOf records).toFinset_card_le
      have h2 : (keysOf records).length = records.length := by simp [keysOf]
      omega
    cases hd : detectRoots records (records.length + 1) records [] [] [] with
    | none =>
      exact absurd hd (detectRoots_total records (records.length + 1) records
        [] [] [] (fun c hc => hc) hfuel)
    | some dres =>
      cases dres with
      | error e => exact ⟨e, by simp only [detectCycles, hd]⟩
      | ok strs =>
        cases strs with
        | nil =>
          exfalso
          obtain ⟨w2, hw2⟩ := detectRoots_resolve records hnd
            (records.length + 1) records [] (fun c hc => hc)
            (fun k hk => absurd hk (List.not_mem_nil k)) hd u hu r hr
          rw [hbad] at hw2
          cases hw2
        | cons s ss =>
          exact ⟨cycleMsgBase ++ joinSep "\n\t" (s :: ss),
            by simp only [detectCycles, hd]⟩
  · intro root hreach
    have hcontra : ∀ S2 : List String,
        (∀ k ∈ S2, ∃ w, byName records k = some w ∧
          ∀ x ∈ referants w, x ∈ S2) → root ∈ S2 → False := by
      intro S2 hcl hroot
      have hukey : u.key ∈ S2 := by
        rcases hreach with heq | ⟨l, hch⟩
        · exact heq ▸ hroot
        · exact reach_mem_closed records hcl l root u.key hroot hch
      obtain ⟨w, hw, hrefs⟩ := hcl u.key hukey
      rw [byName_nodup hnd hu] at hw
      cases hw
      have hrS : r ∈ S2 := hrefs r hr
      obtain ⟨w2, hw2, -⟩ := hcl r hrS
      rw [hbad] at hw2
      cases hw2
    constructor
    · intro fuel out hrun
      unfold getAllConceptsInTree at hrun
      cases ht : treeAux records fuel [root] [] with
      | none => rw [ht] at hrun; cases hrun
      | some tres =>
        rw [ht] at hrun
        cases tres with
        | error e => cases hrun
        | ok S2 =>
          obtain ⟨-, hq, hcl⟩ := treeAux_closed records fuel [root] [] S2
            (by intro k hk; cases hk) ht
          exact hcontra S2 hcl (hq root (by simp))
    · obtain ⟨fuel, res, hrun⟩ := treeAux_any_outer records
        ((keysOf records).toFinset \
          (([] : List String)).toFinset).card [] [root]
        (by intro k hk; cases hk) le_rfl
      cases res with
      | ok S2 =>
        exfalso
        obtain ⟨-, hq, hcl⟩ := treeAux_closed records fuel [root] [] S2
          (by intro k hk; cases hk) hrun
        exact hcontra S2 hcl (hq root (by simp))
      | error e =>
        exact ⟨fuel, e, by simp only [getAllConceptsInTree, hrun]⟩

/-- A record whose only referent key resolves to nothing. -/
def scenarioC8 : List Record := [mkRec "u" "ghost" ""]

/-- Witness for C8: the single record `u` lists the unresolvable referent
`ghost`, and `u` is reachable from the root `u` itself. -/
theorem unresolved_referent_errors_witness :
    (keysOf scenarioC8).Nodup ∧ mkRec "u" "ghost" "" ∈ scenarioC8 ∧
    "ghost" ∈ referants (mkRec "u" "ghost" "") ∧
    byName scenarioC8 "ghost" = none ∧
    ((∀ fuel : Nat, ∃ e,
      moveReferringConceptsDown scenarioC8 (fuel + 1) = some (.error e)) ∧
    (∃ e, detectCycles scenarioC8 (scenarioC8.length + 1) = some (.error e)) ∧
    (∀ root, Reachable scenarioC8 root (mkRec "u" "ghost" "").key →
      (∀ fuel out, getAllConceptsInTree scenarioC8 root fuel ≠ some (.ok out)) ∧
      (∃ fuel e, getAllConceptsInTree scenarioC8 root fuel = some (.error e)))) :=
  ⟨by decide, by decide, by decide, by decide,
    unresolved_referent_errors scenarioC8 (mkRec "u" "ghost" "") "ghost"
      (by decide) (by decide) (by decide) (by decide)⟩
